import Mathlib

/-!
Verification development for the gigpad repository.

We shallowly embed the two modules the claims are about:

* `ChordTransposer` (chord transposition engine): `transposeChord`,
  `transposeChordBySemitones`, `calculateSemitones`, `parseChord`,
  `parseNote`, `getNoteIndex`, `transposeNote`, `getPreferredSpelling`,
  `reconstructChord`.
* `ChordProParser` (ChordPro text parser/serializer): `parseChordPro`,
  `parseDirective`, `parseHeaderMetadata`, `createSection`,
  `containsChords`, `parseChordLyricLine`, `songToChordPro`.

Strings are modelled as `List Char`; JavaScript numbers that the code
produces with `parseInt(..., 10)` are modelled as `Option Int` (with
`none` standing for `NaN`), and optional fields as an outer `Option`.
-/

namespace Gigpad

/-- Strings are lists of characters. -/
abbrev Str := List Char

/-- Convert a Lean string literal to our representation. -/
def str (s : String) : Str := s.data

/-! ### Generic JavaScript string helpers -/

/-- JS whitespace test, restricted to the characters that matter here. -/
def isWS (c : Char) : Bool := c = ' ' || c = '\t' || c = '\n' || c = '\r'

/-- JS `String.prototype.trim`. -/
def trim (s : Str) : Str := ((s.dropWhile isWS).reverse.dropWhile isWS).reverse

/-- JS `String.prototype.toLowerCase` (ASCII). -/
def toLowerStr (s : Str) : Str := s.map Char.toLower

/-- JS `String.prototype.includes` for a single character. -/
def strContainsChar (s : Str) (c : Char) : Bool := s.contains c

/-- JS `s.startsWith(c)` for a one-character argument. -/
def startsWithChar (s : Str) (c : Char) : Bool :=
  match s with
  | [] => false
  | a :: _ => a = c

/-- JS `s.endsWith(c)` for a one-character argument. -/
def endsWithChar (s : Str) (c : Char) : Bool :=
  match s.getLast? with
  | some a => a = c
  | none => false

/-- JS `s.indexOf(c)`: index of the first occurrence, as an `Option`. -/
def indexOfCharAux (c : Char) : Str → Nat → Option Nat
  | [], _ => none
  | a :: rest, i => if a = c then some i else indexOfCharAux c rest (i + 1)

/-- JS `s.indexOf(c)` (`none` models `-1`). -/
def indexOfChar (c : Char) (s : Str) : Option Nat := indexOfCharAux c s 0

/-- JS `s.includes(sub)`. -/
def strIncludes (s sub : Str) : Bool :=
  sub.isPrefixOf s || (match s with | [] => false | _ :: rest => strIncludes rest sub)

/-- JS `s.split(sep)` for a one-character separator (keeps empty pieces). -/
def splitOnChar (sep : Char) : Str → List Str
  | [] => [[]]
  | c :: rest =>
    if c = sep then [] :: splitOnChar sep rest
    else
      match splitOnChar sep rest with
      | l :: ls => (c :: l) :: ls
      | [] => [[c]]

/-- JS `parts.join(sep)` for a one-character separator. -/
def joinChar (sep : Char) : List Str → Str
  | [] => []
  | [p] => p
  | p :: rest => p ++ sep :: joinChar sep rest

/-- Decimal digit test. -/
def isDigit10 (c : Char) : Bool := '0' ≤ c && c ≤ '9'

/-- Value of a decimal digit character. -/
def digitVal (c : Char) : Nat := c.toNat - '0'.toNat

/-- Digit character for a value below ten. -/
def digitChar10 (d : Nat) : Char :=
  if d = 0 then '0' else if d = 1 then '1' else if d = 2 then '2'
  else if d = 3 then '3' else if d = 4 then '4' else if d = 5 then '5'
  else if d = 6 then '6' else if d = 7 then '7' else if d = 8 then '8' else '9'

/-- Numeric value of a digit run. -/
def digitsVal (ds : Str) : Nat := ds.foldl (fun a c => a * 10 + digitVal c) 0

/-- Parse a nonempty leading digit run (`none` when there is none). -/
def parseDigits (s : Str) : Option Nat :=
  if s.takeWhile isDigit10 = [] then none
  else some (digitsVal (s.takeWhile isDigit10))

/-- JS `parseInt(s, 10)`: skip whitespace, optional sign, leading digits;
`none` models `NaN`. -/
def parseIntJS (s : Str) : Option Int :=
  match s.dropWhile isWS with
  | [] => none
  | c :: r =>
    if c = '-' then (parseDigits r).map (fun v => -(v : Int))
    else if c = '+' then (parseDigits r).map (fun v => (v : Int))
    else (parseDigits (c :: r)).map (fun v => (v : Int))

/-- Decimal rendering of a natural number, fuel-based so that the kernel
can evaluate it; `n + 1` units of fuel always suffice since the argument
shrinks by a factor of ten each step. -/
def natToStrF : Nat → Nat → Str
  | 0, _ => []
  | fuel + 1, n =>
    if n < 10 then [digitChar10 n]
    else natToStrF fuel (n / 10) ++ [digitChar10 (n % 10)]

def natToStr (n : Nat) : Str := natToStrF (n + 1) n

/-- JS template-literal rendering `${n}` of an integer. -/
def intToStr (n : Int) : Str :=
  if n < 0 then '-' :: natToStr n.natAbs else natToStr n.natAbs

/-! ### ChordTransposer -/

/-- The source's `CHROMATIC_SCALE` constant. -/
def CHROMATIC_SCALE : List Str :=
  [str "C", str "C#", str "D", str "D#", str "E", str "F",
   str "F#", str "G", str "G#", str "A", str "A#", str "B"]

/-- `CHROMATIC_SCALE[i]`; the default is unreachable because every index the
code builds lies in `[0, 12)`. -/
def chromaticAt (i : Nat) : Str := CHROMATIC_SCALE.getD i (str "C")

/-- The source's `noteMap` object in `getNoteIndex`, as an association
list in source order. -/
def noteMapPairs : List (Str × Nat) :=
  [(str "C", 0), (str "B#", 0),
   (str "C#", 1), (str "Db", 1),
   (str "D", 2),
   (str "D#", 3), (str "Eb", 3),
   (str "E", 4), (str "Fb", 4),
   (str "F", 5), (str "E#", 5),
   (str "F#", 6), (str "Gb", 6),
   (str "G", 7),
   (str "G#", 8), (str "Ab", 8),
   (str "A", 9),
   (str "A#", 10), (str "Bb", 10),
   (str "B", 11), (str "Cb", 11)]

/-- The source's `noteMap[note] ?? 0` lookup in `getNoteIndex`, including
the fallback `0` for strings that are not a key of the map. -/
def getNoteIndex (note : Str) : Nat := (noteMapPairs.lookup note).getD 0

/-- The 21 strings that are keys of the source's `noteMap`. -/
def noteMapKeys : List Str := noteMapPairs.map Prod.fst

/-- A token is a valid pitch-class spelling when `noteMap` has it as a key. -/
def validNote (note : Str) : Prop := note ∈ noteMapKeys

instance (note : Str) : Decidable (validNote note) := by
  unfold validNote; infer_instance

/-- Regex test `[A-G]` on a character (code-point comparison, as in JS). -/
def isRootLetter (c : Char) : Bool := 'A' ≤ c && c ≤ 'G'

/-- Regex match `^([A-G][#b]?)` returning the matched token and the rest. -/
def matchRoot : Str → Option (Str × Str)
  | [] => none
  | [c] => if isRootLetter c then some ([c], []) else none
  | c :: a :: rest2 =>
    if isRootLetter c then
      if a = '#' || a = 'b' then some ([c, a], rest2) else some ([c], a :: rest2)
    else none

/-- The source's `parseNote`: strip to the leading `[A-G][#b]?` token, or
return the input when the regex does not match. -/
def parseNote (note : Str) : Str :=
  match matchRoot note with
  | some (r, _) => r
  | none => note

/-- Result type of the source's `parseChord`. -/
structure ChordParts where
  root : Str
  quality : Str
  bass : Option Str
  deriving DecidableEq, Repr

/-- The part of a chord before the first `/` (the whole chord when there is
no slash), as computed by the source's `parseChord`. -/
def mainPart (chord : Str) : Str :=
  match indexOfChar '/' chord with
  | some i => chord.take i
  | none => chord

/-- The part of a chord after the first `/`, when a slash is present. -/
def bassPart (chord : Str) : Option Str :=
  match indexOfChar '/' chord with
  | some i => some (chord.drop (i + 1))
  | none => none

/-- The source's `parseChord`: split a slash chord at the first `/`, then
match `^([A-G][#b]?)` on the main part. -/
def parseChord (chord : Str) : Option ChordParts :=
  match matchRoot (mainPart chord) with
  | none => none
  | some (root, rest) => some ⟨root, rest, bassPart chord⟩

/-- The source's `getPreferredSpelling` flat-equivalents table
(`flatEquivalents[newNote] || newNote`). -/
def flatRemap (nn : Str) : Str :=
  if nn = str "C#" then str "Db"
  else if nn = str "D#" then str "Eb"
  else if nn = str "F#" then str "Gb"
  else if nn = str "G#" then str "Ab"
  else if nn = str "A#" then str "Bb"
  else nn

/-- The source's `getPreferredSpelling`. -/
def getPreferredSpelling (newNote origNote : Str) : Str :=
  if origNote.contains 'b' then flatRemap newNote else newNote

/-- The source's `transposeNote`.  JS `%` truncates (sign of the dividend),
which is `Int.tmod`; the code then adds 12 once when the result is
negative. -/
def transposeNote (note : Str) (semitones : Int) : Str :=
  getPreferredSpelling
    (chromaticAt
      (if ((getNoteIndex note : Int) + semitones).tmod 12 < 0
       then ((getNoteIndex note : Int) + semitones).tmod 12 + 12
       else ((getNoteIndex note : Int) + semitones).tmod 12).toNat)
    note

/-- The source's `reconstructChord`. -/
def reconstructChord (root quality : Str) (bass : Option Str) : Str :=
  root ++ quality ++ (match bass with | some b => '/' :: b | none => [])

/-- The `bass ? transposeNote(bass, semitones) : null` step of the source's
`transposeChordBySemitones` (an empty bass string is falsy in JS). -/
def transposeBassJS (b : Option Str) (semitones : Int) : Option Str :=
  match b with
  | some bb => if bb = [] then none else some (transposeNote bb semitones)
  | none => none

/-- The source's `transposeChordBySemitones`. -/
def transposeChordBySemitones (chord : Str) (semitones : Int) : Str :=
  if trim chord = [] then chord
  else
    match parseChord chord with
    | none => chord
    | some cp =>
      reconstructChord (transposeNote cp.root semitones) cp.quality
        (transposeBassJS cp.bass semitones)

/-- The source's `calculateSemitones`.  The two `while` loops execute at most
once because both note indices lie in `[0, 11]`, so the raw difference lies
in `[-11, 11]`. -/
def normWindow (s : Int) : Int :=
  if s < 0 then s + 12 else if 12 ≤ s then s - 12 else s

def calculateSemitones (fromKey toKey : Str) : Int :=
  normWindow ((getNoteIndex (parseNote toKey) : Int) - (getNoteIndex (parseNote fromKey) : Int))

/-- The source's `transposeChord`. -/
def transposeChord (chord fromKey toKey : Str) (capoPosition : Int) : Str :=
  if trim chord = [] then chord
  else transposeChordBySemitones chord (calculateSemitones fromKey toKey + capoPosition)

/-! ### Spec-side notions for the transposer claims -/

/-- The 17 note spellings the transposer can ever emit: the sharp-preferring
chromatic table together with its five flat remappings. -/
def canonList : List Str :=
  CHROMATIC_SCALE ++ [str "Db", str "Eb", str "Gb", str "Ab", str "Bb"]

/-- The spec's description of note rendering: index into the canonical
sharp-preferring table at the (mathematically normalized) chromatic index,
then remap the five sharp spellings to flats exactly when the original token
contained a `b`. -/
def renderNoteSpec (t : Str) (n : Int) : Str :=
  if t.contains 'b' then flatRemap (chromaticAt ((((getNoteIndex t : Int) + n) % 12).toNat))
  else chromaticAt ((((getNoteIndex t : Int) + n) % 12).toNat)

/-- Spec-side bass handling mirroring `transposeChordBySemitones`. -/
def bassSpec (b : Option Str) (n : Int) : Option Str :=
  match b with
  | some bb => if bb = [] then none else some (renderNoteSpec bb n)
  | none => none

/-- The spec's `pitchClassOf`: strip any trailing quality, then look the key
up in the chromatic index table. -/
def pitchClassOf (key : Str) : Nat := getNoteIndex (parseNote key)

/-- The spec's `normalizedDelta`: difference of pitch classes forced into
`[0, 11]`. -/
def normalizedDelta (fromKey toKey : Str) : Int :=
  ((pitchClassOf toKey : Int) - (pitchClassOf fromKey : Int)) % 12

/-- The enharmonic equivalence class of a chord: chromatic index of the
root, the quality verbatim, and the chromatic index of the bass. -/
def chordClass (c : Str) : Option (Nat × Str × Option Nat) :=
  (parseChord c).map fun cp => (getNoteIndex cp.root, cp.quality, cp.bass.map getNoteIndex)

/-- A quality string is benign when it does not start with an accidental
(otherwise reparsing would glue the accidental onto the root token). -/
def qOK (q : Str) : Prop :=
  match q with
  | [] => True
  | h :: _ => ¬(h = '#' ∨ h = 'b')

instance (q : Str) : Decidable (qOK q) := by
  unfold qOK; split <;> infer_instance

/-! ### Arithmetic bridge: JS `%` (truncating) vs mathematical mod -/

theorem tmod12_bounds (a : Int) : -12 < a.tmod 12 ∧ a.tmod 12 < 12 := by
  refine ⟨?_, Int.tmod_lt_of_pos a (by omega)⟩
  cases a with
  | ofNat m =>
    have h : (0 : Int) ≤ (Int.ofNat m).tmod 12 :=
      Int.tmod_nonneg _ (Int.ofNat_nonneg m)
    omega
  | negSucc m =>
    have h : (Int.negSucc m).tmod 12 = -(((m + 1) % 12 : Nat) : Int) := rfl
    have h2 : (m + 1) % 12 < 12 := Nat.mod_lt _ (by omega)
    omega

/-- JS `((i + n) % 12)` followed by the one-shot `+ 12` fix equals
mathematical mod 12. -/
theorem tmodFix_eq_emod (a : Int) :
    (if a.tmod 12 < 0 then a.tmod 12 + 12 else a.tmod 12) = a % 12 := by
  have h1 := Int.tmod_add_tdiv a 12
  have h2 := tmod12_bounds a
  split <;> omega

theorem idx_roundtrip (i : Nat) (n : Int) (h : i < 12) :
    ((((((i : Int) + n) % 12).toNat : Int) + (-n)) % 12).toNat = i := by
  omega

/-! ### Structural lemmas about the transposer -/

theorem mem_of_lookup_eq_some {α β : Type} [BEq α] [LawfulBEq α] {l : List (α × β)}
    {k : α} {b : β} (h : l.lookup k = some b) : (k, b) ∈ l := by
  obtain ⟨l₁, l₂, rfl, -⟩ := List.lookup_eq_some_iff.mp h
  exact List.mem_append_right _ (List.mem_cons_self _ _)

theorem getNoteIndex_lt (s : Str) : getNoteIndex s < 12 := by
  unfold getNoteIndex
  cases h : noteMapPairs.lookup s with
  | none => simp
  | some v =>
    have hm := mem_of_lookup_eq_some h
    have hv : ∀ p ∈ noteMapPairs, p.2 < 12 := by decide
    simpa using hv _ hm

theorem getNoteIndex_eq_zero (s : Str) (h : ¬ validNote s) : getNoteIndex s = 0 := by
  unfold getNoteIndex
  cases hl : noteMapPairs.lookup s with
  | none => rfl
  | some v =>
    exfalso
    exact h (List.mem_map_of_mem Prod.fst (mem_of_lookup_eq_some hl))

theorem transposeNote_eq_render (t : Str) (n : Int) :
    transposeNote t n = renderNoteSpec t n := by
  unfold transposeNote renderNoteSpec getPreferredSpelling
  rw [tmodFix_eq_emod]

set_option maxHeartbeats 1000000 in
theorem chrom_props : ∀ i, i < 12 →
    chromaticAt i ∈ canonList ∧ flatRemap (chromaticAt i) ∈ canonList ∧
    getNoteIndex (chromaticAt i) = i ∧ getNoteIndex (flatRemap (chromaticAt i)) = i := by
  decide

set_option maxHeartbeats 1000000 in
theorem canon_props : ∀ r ∈ canonList,
    r ≠ [] ∧ '/' ∉ r ∧ r.head?.all isRootLetter = true ∧
    transposeNote r 0 = r ∧ transposeNote r 12 = r := by
  decide

theorem emod12_toNat_lt (a : Int) : (a % 12).toNat < 12 := by omega

theorem transposeNote_mem_canon (t : Str) (n : Int) :
    transposeNote t n ∈ canonList := by
  rw [transposeNote_eq_render]
  unfold renderNoteSpec
  have h := chrom_props _ (emod12_toNat_lt ((getNoteIndex t : Int) + n))
  split
  · exact h.2.1
  · exact h.1

theorem getNoteIndex_transposeNote (t : Str) (n : Int) :
    getNoteIndex (transposeNote t n) = ((((getNoteIndex t : Int) + n) % 12)).toNat := by
  rw [transposeNote_eq_render]
  unfold renderNoteSpec
  have h := chrom_props _ (emod12_toNat_lt ((getNoteIndex t : Int) + n))
  split
  · exact h.2.2.2
  · exact h.2.2.1

theorem matchRoot_append (s r t : Str) (h : matchRoot s = some (r, t)) : s = r ++ t := by
  match s with
  | [] => simp [matchRoot] at h
  | [c] =>
    simp only [matchRoot] at h
    by_cases hc : isRootLetter c = true
    · rw [if_pos hc] at h; simp at h; obtain ⟨rfl, rfl⟩ := h; rfl
    · rw [if_neg hc] at h; cases h
  | c :: a :: r2 =>
    simp only [matchRoot] at h
    by_cases hc : isRootLetter c = true
    · rw [if_pos hc] at h
      by_cases ha : (a = '#' || a = 'b') = true
      · rw [if_pos ha] at h; simp at h; obtain ⟨rfl, rfl⟩ := h; rfl
      · rw [if_neg ha] at h; simp at h; obtain ⟨rfl, rfl⟩ := h; rfl
    · rw [if_neg hc] at h; cases h

theorem matchRoot_root_head (s r t : Str) (h : matchRoot s = some (r, t)) :
    ∃ c r2, r = c :: r2 ∧ isRootLetter c = true := by
  match s with
  | [] => simp [matchRoot] at h
  | [c] =>
    simp only [matchRoot] at h
    by_cases hc : isRootLetter c = true
    · rw [if_pos hc] at h; simp at h; exact ⟨c, [], by simp [← h.1], hc⟩
    · rw [if_neg hc] at h; cases h
  | c :: a :: r2 =>
    simp only [matchRoot] at h
    by_cases hc : isRootLetter c = true
    · rw [if_pos hc] at h
      by_cases ha : (a = '#' || a = 'b') = true
      · rw [if_pos ha] at h; simp at h; exact ⟨c, [a], by simp [← h.1], hc⟩
      · rw [if_neg ha] at h; simp at h; exact ⟨c, [], by simp [← h.1], hc⟩
    · rw [if_neg hc] at h; cases h

theorem matchRoot_letter_cons (c : Char) (hc : isRootLetter c = true) (q : Str)
    (hq : qOK q) : matchRoot (c :: q) = some ([c], q) := by
  cases q with
  | nil => simp [matchRoot, hc]
  | cons a t =>
    unfold qOK at hq
    have ha : (a = '#' || a = 'b') = false := by
      simp only [Bool.or_eq_false_iff, decide_eq_false_iff_not]
      constructor
      · intro hx; exact hq (Or.inl hx)
      · intro hx; exact hq (Or.inr hx)
    simp [matchRoot, hc, ha]

theorem matchRoot_canon_append (r : Str) (hr : r ∈ canonList) (q : Str) (hq : qOK q) :
    matchRoot (r ++ q) = some (r, q) := by
  fin_cases hr <;>
    first
      | rfl
      | exact matchRoot_letter_cons _ (by decide) q hq

theorem indexOfCharAux_not_mem (c : Char) (s : Str) (k : Nat) (h : c ∉ s) :
    indexOfCharAux c s k = none := by
  induction s generalizing k with
  | nil => rfl
  | cons a rest ih =>
    unfold indexOfCharAux
    rw [if_neg (by intro hx; exact h (hx ▸ List.mem_cons_self a rest))]
    exact ih _ (fun hx => h (List.mem_cons_of_mem a hx))

theorem indexOfCharAux_append (c : Char) (a b : Str) (k : Nat) (h : c ∉ a) :
    indexOfCharAux c (a ++ c :: b) k = some (k + a.length) := by
  induction a generalizing k with
  | nil => simp [indexOfCharAux]
  | cons x rest ih =>
    unfold indexOfCharAux
    simp only [List.cons_append]
    rw [if_neg (by intro hx; exact h (hx ▸ List.mem_cons_self x rest))]
    rw [ih _ (fun hx => h (List.mem_cons_of_mem x hx))]
    simp; omega

theorem indexOfChar_not_mem (c : Char) (s : Str) (h : c ∉ s) :
    indexOfChar c s = none := indexOfCharAux_not_mem c s 0 h

theorem indexOfChar_append (c : Char) (a b : Str) (h : c ∉ a) :
    indexOfChar c (a ++ c :: b) = some a.length := by
  unfold indexOfChar
  rw [indexOfCharAux_append c a b 0 h]
  simp

theorem indexOfCharAux_some (c : Char) (s : Str) (k i : Nat)
    (h : indexOfCharAux c s k = some i) :
    ∃ a b, s = a ++ c :: b ∧ c ∉ a ∧ i = k + a.length := by
  induction s generalizing k with
  | nil => cases h
  | cons x rest ih =>
    unfold indexOfCharAux at h
    by_cases hx : x = c
    · rw [if_pos hx] at h
      injection h with h
      exact ⟨[], rest, by simp [hx], by simp, by simp [h]⟩
    · rw [if_neg hx] at h
      obtain ⟨a, b, rfl, hna, hi⟩ := ih _ h
      refine ⟨x :: a, b, rfl, ?_, by simp [hi]; omega⟩
      intro hmem
      rcases List.mem_cons.mp hmem with rfl | hmem2
      · exact hx rfl
      · exact hna hmem2

theorem not_mem_of_indexOfCharAux_none (c : Char) (s : Str) (k : Nat)
    (h : indexOfCharAux c s k = none) : c ∉ s := by
  induction s generalizing k with
  | nil => simp
  | cons x rest ih =>
    unfold indexOfCharAux at h
    by_cases hx : x = c
    · rw [if_pos hx] at h; cases h
    · rw [if_neg hx] at h
      intro hmem
      rcases List.mem_cons.mp hmem with rfl | hmem2
      · exact hx rfl
      · exact ih _ h hmem2

theorem not_mem_of_indexOfChar_none (c : Char) (s : Str)
    (h : indexOfChar c s = none) : c ∉ s :=
  not_mem_of_indexOfCharAux_none c s 0 h

theorem mainPart_of_none (ch : Str) (h : indexOfChar '/' ch = none) :
    mainPart ch = ch := by unfold mainPart; rw [h]

theorem bassPart_of_none (ch : Str) (h : indexOfChar '/' ch = none) :
    bassPart ch = none := by unfold bassPart; rw [h]

theorem mainPart_of_some (ch : Str) (i : Nat) (h : indexOfChar '/' ch = some i) :
    mainPart ch = ch.take i := by unfold mainPart; rw [h]

theorem bassPart_of_some (ch : Str) (i : Nat) (h : indexOfChar '/' ch = some i) :
    bassPart ch = some (ch.drop (i + 1)) := by unfold bassPart; rw [h]

theorem drop_append_cons (a : Str) (x : Char) (b : Str) :
    (a ++ x :: b).drop (a.length + 1) = b := by
  have h4 : List.drop 1 (List.drop a.length (a ++ x :: b)) =
      List.drop (a.length + 1) (a ++ x :: b) := List.drop_drop 1 a.length _
  rw [← h4, List.drop_left]
  simp

theorem parseChord_decomp (ch : Str) (cp : ChordParts) (h : parseChord ch = some cp) :
    (cp.bass = none ∧ ch = cp.root ++ cp.quality ∧ '/' ∉ ch) ∨
    (∃ bb, cp.bass = some bb ∧ ch = cp.root ++ cp.quality ++ '/' :: bb ∧
      '/' ∉ cp.root ++ cp.quality) := by
  unfold parseChord at h
  cases hm : matchRoot (mainPart ch) with
  | none => rw [hm] at h; cases h
  | some p =>
    rw [hm] at h
    obtain ⟨root, rest⟩ := p
    simp only [Option.some.injEq] at h
    subst h
    cases hi : indexOfChar '/' ch with
    | none =>
      rw [mainPart_of_none ch hi] at hm
      left
      exact ⟨by simp [bassPart_of_none ch hi],
             matchRoot_append _ _ _ hm,
             not_mem_of_indexOfChar_none '/' ch hi⟩
    | some i =>
      obtain ⟨a, b, hab, hna, hlen⟩ := indexOfCharAux_some '/' _ 0 i hi
      have hlen' : i = a.length := by omega
      have hmain : mainPart ch = a := by
        rw [mainPart_of_some ch i hi, hab, hlen', List.take_left]
      have hbass : bassPart ch = some b := by
        rw [bassPart_of_some ch i hi, hab, hlen', drop_append_cons]
      rw [hmain] at hm
      right
      refine ⟨b, by simp [hbass], ?_, ?_⟩
      · rw [← matchRoot_append _ _ _ hm]; exact hab
      · rw [← matchRoot_append _ _ _ hm]; exact hna

theorem isWS_of_isRootLetter (c : Char) (h : isRootLetter c = true) : isWS c = false := by
  rcases Bool.eq_false_or_eq_true (isWS c) with ht | hf
  · exfalso
    simp only [isWS, Bool.or_eq_true, decide_eq_true_eq] at ht
    rcases ht with ((rfl | rfl) | rfl) | rfl <;> exact absurd h (by decide)
  · exact hf

theorem trim_ne_nil_of_head (s : Str) (ch : Char) (h : s.head? = some ch)
    (hw : isWS ch = false) : trim s ≠ [] := by
  cases s with
  | nil => cases h
  | cons c t =>
    simp only [List.head?_cons, Option.some.injEq] at h
    obtain rfl := h
    intro hcontra
    unfold trim at hcontra
    rw [List.reverse_eq_nil_iff, List.dropWhile_eq_nil_iff] at hcontra
    have hmem : c ∈ ((c :: t).dropWhile isWS).reverse := by
      rw [List.dropWhile_cons, if_neg (by simp [hw])]
      simp
    exact absurd (hcontra _ hmem) (by simp [hw])

theorem parseChord_root_head (ch : Str) (cp : ChordParts) (h : parseChord ch = some cp) :
    ∃ c r2, cp.root = c :: r2 ∧ isRootLetter c = true := by
  unfold parseChord at h
  cases hm : matchRoot (mainPart ch) with
  | none => rw [hm] at h; cases h
  | some p =>
    rw [hm] at h
    obtain ⟨root, rest⟩ := p
    simp at h
    subst h
    exact matchRoot_root_head _ _ _ hm

theorem parseChord_trim_ne_nil (ch : Str) (cp : ChordParts)
    (h : parseChord ch = some cp) : trim ch ≠ [] := by
  obtain ⟨c, r2, hr, hlet⟩ := parseChord_root_head ch cp h
  have hd : ch.head? = some c := by
    rcases parseChord_decomp ch cp h with ⟨_, heq, _⟩ | ⟨bb, _, heq, _⟩ <;>
      rw [heq, hr] <;> rfl
  exact trim_ne_nil_of_head ch c hd (isWS_of_isRootLetter c hlet)

theorem tcbs_of_parse (c : Str) (n : Int) (cp : ChordParts)
    (h : parseChord c = some cp) :
    transposeChordBySemitones c n =
      reconstructChord (transposeNote cp.root n) cp.quality
        (transposeBassJS cp.bass n) := by
  unfold transposeChordBySemitones
  rw [if_neg (parseChord_trim_ne_nil c cp h), h]

theorem parse_reconstruct (r : Str) (hr : r ∈ canonList) (q : Str) (hq : qOK q)
    (hq2 : '/' ∉ q) (b : Option Str) :
    parseChord (reconstructChord r q b) = some ⟨r, q, b⟩ := by
  have hslash : '/' ∉ r ++ q := by
    intro hmem
    rcases List.mem_append.mp hmem with hx | hx
    · exact (canon_props r hr).2.1 hx
    · exact hq2 hx
  cases b with
  | none =>
    have hch : reconstructChord r q none = r ++ q := by
      unfold reconstructChord; simp
    have hidx : indexOfChar '/' (r ++ q) = none := indexOfChar_not_mem _ _ hslash
    unfold parseChord
    rw [hch, mainPart_of_none _ hidx, bassPart_of_none _ hidx,
      matchRoot_canon_append r hr q hq]
  | some b2 =>
    have hch : reconstructChord r q (some b2) = (r ++ q) ++ '/' :: b2 := by
      unfold reconstructChord; simp
    have hidx : indexOfChar '/' ((r ++ q) ++ '/' :: b2) = some (r ++ q).length :=
      indexOfChar_append '/' (r ++ q) b2 hslash
    unfold parseChord
    rw [hch, mainPart_of_some _ _ hidx, bassPart_of_some _ _ hidx, List.take_left,
      drop_append_cons, matchRoot_canon_append r hr q hq]

/-! ### Remaining transposer helper lemmas -/

theorem validNote_ne_nil (s : Str) (h : validNote s) : s ≠ [] := by
  intro hnil
  subst hnil
  exact absurd h (by decide)

theorem parseChord_no_slash_quality (c : Str) (cp : ChordParts)
    (h : parseChord c = some cp) : '/' ∉ cp.quality := by
  rcases parseChord_decomp c cp h with ⟨-, heq, hns⟩ | ⟨bb, -, heq, hns⟩
  · intro hm
    apply hns
    rw [heq]
    exact List.mem_append_right _ hm
  · intro hm
    exact hns (List.mem_append_right _ hm)

theorem normWindow_eq_emod (s : Int) (h1 : -12 < s) (h2 : s < 12) :
    normWindow s = s % 12 := by
  unfold normWindow
  split_ifs <;> omega

theorem calcSemitones_eq_delta (f t : Str) :
    calculateSemitones f t = normalizedDelta f t := by
  unfold calculateSemitones normalizedDelta pitchClassOf
  have hf := getNoteIndex_lt (parseNote f)
  have ht := getNoteIndex_lt (parseNote t)
  exact normWindow_eq_emod _ (by omega) (by omega)

/-! ### Claim theorems for the transposer -/

/-- Claim C2, counterexample: transposing `Db` up 3 semitones gives `E`,
and transposing `E` back down 3 gives `C#`, not `Db`; moreover the
normalization of `Db` to its own sharp/flat preference is `Db` itself, so
the claim's "modulo enharmonic normalization" allowance does not apply. -/
theorem transpose_roundTrip_counterexample :
    transposeChordBySemitones (transposeChordBySemitones (str "Db") 3) (-3) = str "C#" ∧
    str "C#" ≠ str "Db" ∧
    getPreferredSpelling (chromaticAt (getNoteIndex (str "Db"))) (str "Db") = str "Db" :=
  ⟨by decide, by decide, by decide⟩

/-- Claim C2, amended: for every chord whose root token (and bass token, if
a slash bass is present) is a valid pitch-class spelling and whose quality
does not begin with an accidental, transposing by `n` and then by `-n`
returns a chord with the same root pitch class, the same quality, and the
same bass pitch class (the original chord up to enharmonic spelling, the
spelling being determined by the intermediate token). -/
theorem transpose_roundTrip_pitchClass (c : Str) (n : Int) (cp : ChordParts)
    (h : parseChord c = some cp) (hr : validNote cp.root)
    (hb : match cp.bass with | some bb => validNote bb | none => True)
    (hq : qOK cp.quality) :
    chordClass (transposeChordBySemitones (transposeChordBySemitones c n) (-n)) =
      chordClass c := by
  have hq2 : '/' ∉ cp.quality := parseChord_no_slash_quality c cp h
  rw [tcbs_of_parse c n cp h]
  cases hbb : cp.bass with
  | none =>
    have hb1 : transposeBassJS (none : Option Str) n = none := rfl
    rw [hb1]
    have hp1 := parse_reconstruct (transposeNote cp.root n)
      (transposeNote_mem_canon _ _) cp.quality hq hq2 none
    rw [tcbs_of_parse _ (-n) _ hp1]
    have hp2 := parse_reconstruct (transposeNote (transposeNote cp.root n) (-n))
      (transposeNote_mem_canon _ _) cp.quality hq hq2 (transposeBassJS none (-n))
    unfold chordClass
    rw [hp2, h]
    simp only [Option.map_some', hbb]
    rw [getNoteIndex_transposeNote, getNoteIndex_transposeNote]
    have harith := idx_roundtrip (getNoteIndex cp.root) n (getNoteIndex_lt _)
    rw [harith]
    rfl
  | some bb =>
    have hvb : validNote bb := by rw [hbb] at hb; exact hb
    have hbnil : bb ≠ [] := validNote_ne_nil bb hvb
    have hb1 : transposeBassJS (some bb) n = some (transposeNote bb n) := by
      simp [transposeBassJS, hbnil]
    rw [hb1]
    have hp1 := parse_reconstruct (transposeNote cp.root n)
      (transposeNote_mem_canon _ _) cp.quality hq hq2 (some (transposeNote bb n))
    rw [tcbs_of_parse _ (-n) _ hp1]
    have hbnil2 : transposeNote bb n ≠ [] :=
      (canon_props _ (transposeNote_mem_canon bb n)).1
    have hb2 : transposeBassJS (some (transposeNote bb n)) (-n) =
        some (transposeNote (transposeNote bb n) (-n)) := by
      simp [transposeBassJS, hbnil2]
    have hp2 := parse_reconstruct (transposeNote (transposeNote cp.root n) (-n))
      (transposeNote_mem_canon _ _) cp.quality hq hq2
      (some (transposeNote (transposeNote bb n) (-n)))
    dsimp only
    rw [hb2]
    unfold chordClass
    rw [hp2, h]
    simp only [Option.map_some', hbb]
    rw [getNoteIndex_transposeNote, getNoteIndex_transposeNote,
      getNoteIndex_transposeNote, getNoteIndex_transposeNote]
    rw [idx_roundtrip (getNoteIndex cp.root) n (getNoteIndex_lt _),
      idx_roundtrip (getNoteIndex bb) n (getNoteIndex_lt _)]

/-- Claim C2, witness: the amended round trip at a concrete slash chord. -/
theorem transpose_roundTrip_pitchClass_witness :
    chordClass (transposeChordBySemitones
      (transposeChordBySemitones (str "Dbm7/Ab") 3) (-3)) =
      chordClass (str "Dbm7/Ab") :=
  transpose_roundTrip_pitchClass (str "Dbm7/Ab") 3
    ⟨str "Db", str "m7", some (str "Ab")⟩ (by decide) (by decide) (by decide) (by decide)

/-- Claim C3: for every parseable chord, each transposed note is rendered
from the canonical sharp-preferring chromatic table at the normalized index
and remapped to flats exactly when the original token contained a `b`; plus
the three concrete examples from the spec. -/
theorem transpose_renders_from_sharp_table :
    (∀ (c : Str) (n : Int) (cp : ChordParts), parseChord c = some cp →
      transposeChordBySemitones c n =
        reconstructChord (renderNoteSpec cp.root n) cp.quality (bassSpec cp.bass n)) ∧
    transposeChordBySemitones (str "Db") 2 = str "Eb" ∧
    transposeChordBySemitones (str "D") 1 = str "D#" ∧
    transposeChordBySemitones (str "C/E") 2 = str "D/F#" := by
  refine ⟨?_, by decide, by decide, by decide⟩
  intro c n cp h
  rw [tcbs_of_parse c n cp h, transposeNote_eq_render]
  cases hbb : cp.bass with
  | none => rfl
  | some bb =>
    by_cases hnil : bb = []
    · simp [transposeBassJS, bassSpec, hnil]
    · simp [transposeBassJS, bassSpec, hnil, transposeNote_eq_render]

/-- Claim C3, witness: the general rendering equation at a concrete chord. -/
theorem transpose_renders_from_sharp_table_witness :
    transposeChordBySemitones (str "C/E") 2 =
      reconstructChord (renderNoteSpec (str "C") 2) []
        (bassSpec (some (str "E")) 2) :=
  transpose_renders_from_sharp_table.1 (str "C/E") 2
    ⟨str "C", [], some (str "E")⟩ (by decide)

/-- Claim C4: `transposeChord` equals `transposeChordBySemitones` at the
normalized key delta plus the (unbounded) capo term. -/
theorem transposeChord_eq_delta_plus_capo (c f t : Str) (p : Int) :
    transposeChord c f t p =
      transposeChordBySemitones c (normalizedDelta f t + p) := by
  unfold transposeChord
  by_cases hc : trim c = []
  · rw [if_pos hc]
    unfold transposeChordBySemitones
    rw [if_pos hc]
  · rw [if_neg hc, calcSemitones_eq_delta]

/-- Claim C5, counterexample: transposing `Cb` by zero semitones returns
`B`, not `Cb`, so zero transposition is not the identity on all chords. -/
theorem transpose_zero_counterexample :
    transposeChordBySemitones (str "Cb") 0 = str "B" ∧ str "B" ≠ str "Cb" :=
  ⟨by decide, by decide⟩

/-- Claim C5, amended: transposing by 0 or by 12 semitones is the identity
on every chord whose root token (and bass token, when a slash bass is
present) is one of the 17 canonical spellings the transposer emits. -/
theorem transpose_zero_twelve_identity (c : Str) (cp : ChordParts)
    (h : parseChord c = some cp) (hr : cp.root ∈ canonList)
    (hb : match cp.bass with | some bb => bb ∈ canonList | none => True) :
    transposeChordBySemitones c 0 = c ∧ transposeChordBySemitones c 12 = c := by
  have key : ∀ n : Int, (∀ r, r ∈ canonList → transposeNote r n = r) →
      transposeChordBySemitones c n = c := by
    intro n hid
    rw [tcbs_of_parse c n cp h]
    rcases parseChord_decomp c cp h with ⟨hb0, heq, -⟩ | ⟨bb, hbs, heq, -⟩
    · rw [hb0]
      have hb1 : transposeBassJS (none : Option Str) n = none := rfl
      rw [hb1, hid _ hr]
      unfold reconstructChord
      simp [heq]
    · rw [hbs]
      have hbc : bb ∈ canonList := by rw [hbs] at hb; exact hb
      have hbnil : bb ≠ [] := (canon_props bb hbc).1
      have hb1 : transposeBassJS (some bb) n = some (transposeNote bb n) := by
        simp [transposeBassJS, hbnil]
      rw [hb1, hid _ hr, hid _ hbc]
      unfold reconstructChord
      rw [heq]
  exact ⟨key 0 (fun r hr2 => (canon_props r hr2).2.2.2.1),
         key 12 (fun r hr2 => (canon_props r hr2).2.2.2.2)⟩

/-- Claim C5, witness: the amended identity at a concrete slash chord. -/
theorem transpose_zero_twelve_identity_witness :
    transposeChordBySemitones (str "Dbm7/Ab") 0 = str "Dbm7/Ab" ∧
    transposeChordBySemitones (str "Dbm7/Ab") 12 = str "Dbm7/Ab" :=
  transpose_zero_twelve_identity (str "Dbm7/Ab")
    ⟨str "Db", str "m7", some (str "Ab")⟩ (by decide) (by decide) (by decide)

/-- Claim C6: when the portion of the chord before any slash does not match
the root pattern, both transposition functions return the input verbatim;
in particular `transposeBySemitones("???", 5) == "???"`. -/
theorem unparseable_passthrough :
    (∀ (c : Str) (n : Int) (f t : Str) (p : Int), matchRoot (mainPart c) = none →
      transposeChordBySemitones c n = c ∧ transposeChord c f t p = c) ∧
    transposeChordBySemitones (str "???") 5 = str "???" := by
  refine ⟨?_, by decide⟩
  intro c n f t p hm
  have hpc : parseChord c = none := by
    unfold parseChord
    rw [hm]
  have h1 : ∀ m : Int, transposeChordBySemitones c m = c := by
    intro m
    unfold transposeChordBySemitones
    by_cases hc : trim c = []
    · rw [if_pos hc]
    · rw [if_neg hc, hpc]
  refine ⟨h1 n, ?_⟩
  unfold transposeChord
  by_cases hc : trim c = []
  · rw [if_pos hc]
  · rw [if_neg hc]
    exact h1 _

/-- Claim C6, witness: passthrough at the concrete input `???`. -/
theorem unparseable_passthrough_witness :
    transposeChordBySemitones (str "???") 5 = str "???" ∧
    transposeChord (str "???") (str "C") (str "G") 2 = str "???" :=
  unparseable_passthrough.1 (str "???") 5 (str "C") (str "G") 2 (by decide)

/-- Claim C7, counterexample: the bass token `X` is not a pitch-class
spelling, yet `transposeBySemitones("C/X", 5)` returns `F/F`, not the
input unchanged. -/
theorem invalid_bass_counterexample :
    transposeChordBySemitones (str "C/X") 5 = str "F/F" ∧
    str "F/F" ≠ str "C/X" ∧ ¬ validNote (str "X") :=
  ⟨by decide, by decide, by decide⟩

/-- Claim C7, amended: a nonempty bass token that is not one of the 21
`noteMap` keys does not cause passthrough; it is looked up with the
fallback index 0 (treated as pitch class C) and transposed accordingly,
while the root and quality are transposed as usual. -/
theorem invalid_bass_transposed_as_C (c : Str) (n : Int) (cp : ChordParts) (bb : Str)
    (h : parseChord c = some cp) (hbs : cp.bass = some bb) (hbnil : bb ≠ [])
    (hv : ¬ validNote bb) :
    transposeChordBySemitones c n =
      reconstructChord (transposeNote cp.root n) cp.quality
        (some (getPreferredSpelling (chromaticAt ((n % 12).toNat)) bb)) := by
  rw [tcbs_of_parse c n cp h, hbs]
  have hb1 : transposeBassJS (some bb) n = some (transposeNote bb n) := by
    simp [transposeBassJS, hbnil]
  rw [hb1]
  have hbase : transposeNote bb n =
      getPreferredSpelling (chromaticAt ((n % 12).toNat)) bb := by
    rw [transposeNote_eq_render]
    unfold renderNoteSpec getPreferredSpelling
    rw [getNoteIndex_eq_zero bb hv]
    norm_num
  rw [hbase]

/-- Claim C7, witness: the amended behavior at the concrete chord `C/X`. -/
theorem invalid_bass_transposed_as_C_witness :
    transposeChordBySemitones (str "C/X") 5 =
      reconstructChord (transposeNote (str "C") 5) []
        (some (getPreferredSpelling (chromaticAt (((5 : Int) % 12).toNat)) (str "X"))) :=
  invalid_bass_transposed_as_C (str "C/X") 5
    ⟨str "C", [], some (str "X")⟩ (str "X") (by decide) (by decide) (by decide) (by decide)

/-! ### ChordPro parser: data model

The `Song.metadata` record of the source (createdAt/updatedAt/tags) is
omitted: it holds wall-clock dates, and no claim mentions it. -/

inductive SectionType
  | verse | chorus | bridge | intro | outro
  deriving DecidableEq, Repr

structure ChordPosition where
  chord : Str
  position : Nat
  deriving DecidableEq, Repr

structure ChordLyricLine where
  lyrics : Str
  chords : List ChordPosition
  deriving DecidableEq, Repr

structure SongSection where
  type : SectionType
  name : Str
  content : List ChordLyricLine
  deriving DecidableEq, Repr

/-- JS numbers produced by `parseInt` are modelled as `Option Int` with
`none` for `NaN`; an optional field adds an outer `Option` for
`undefined`. -/
structure Song where
  id : Str
  title : Str
  artist : Str
  originalKey : Str
  capoPosition : Int
  tempo : Option (Option Int)
  sections : List SongSection
  deriving DecidableEq, Repr

structure ChordProMetadata where
  title : Option Str
  artist : Option Str
  key : Option Str
  originalKey : Option Str
  capo : Option (Option Int)
  tempo : Option (Option Int)
  notes : Option Str
  scriptureReference : Option Str
  book : Option Str
  deriving DecidableEq, Repr

def initMeta : ChordProMetadata :=
  ⟨none, none, none, none, none, none, none, none, none⟩

/-! ### ChordPro parser: functions -/

/-- JS `value.replace(/^\[|\]$/g, '')`: one leading `[` and one trailing
`]` are removed, independently. -/
def stripLeadBracket (v : Str) : Str :=
  if v.head? = some '[' then v.drop 1 else v

def stripTailBracket (v : Str) : Str :=
  if v.getLast? = some ']' then v.dropLast else v

def stripKeyBrackets (v : Str) : Str := stripTailBracket (stripLeadBracket v)

/-- The source's `parseDirective` (the line still carries its braces). -/
def parseDirective (line : Str) (m : ChordProMetadata) : ChordProMetadata :=
  match splitOnChar ':' ((line.drop 1).dropLast) with
  | [] => m
  | key :: valueParts =>
    if toLowerStr key = str "t" ∨ toLowerStr key = str "title" then
      { m with title := some (trim (joinChar ':' valueParts)) }
    else if toLowerStr key = str "artist" ∨ toLowerStr key = str "a" then
      { m with artist := some (trim (joinChar ':' valueParts)) }
    else if toLowerStr key = str "key" then
      { m with key := some (stripKeyBrackets (trim (joinChar ':' valueParts))) }
    else if toLowerStr key = str "capo" then
      { m with capo := some (parseIntJS (trim (joinChar ':' valueParts))) }
    else if toLowerStr key = str "tempo" then
      { m with tempo := some (parseIntJS (trim (joinChar ':' valueParts))) }
    else m

/-- The source's `parseHeaderMetadata`. -/
def parseHeaderMetadata (line : Str) (m : ChordProMetadata) : ChordProMetadata :=
  match indexOfChar ':' line with
  | none => m
  | some i =>
    if toLowerStr (trim (line.take i)) = str "title" then
      { m with title := some (trim (line.drop (i + 1))) }
    else if toLowerStr (trim (line.take i)) = str "artist" then
      { m with artist := some (trim (line.drop (i + 1))) }
    else if toLowerStr (trim (line.take i)) = str "key" then
      { m with key := some (stripKeyBrackets (trim (line.drop (i + 1)))) }
    else if toLowerStr (trim (line.take i)) = str "original key" then
      { m with originalKey := some (trim (line.drop (i + 1))) }
    else if toLowerStr (trim (line.take i)) = str "capo" then
      { m with capo := some (parseIntJS (trim (line.drop (i + 1)))) }
    else if toLowerStr (trim (line.take i)) = str "tempo" then
      { m with tempo := some (parseIntJS (trim (line.drop (i + 1)))) }
    else if toLowerStr (trim (line.take i)) = str "notes" then
      { m with notes := some (trim (line.drop (i + 1))) }
    else if toLowerStr (trim (line.take i)) = str "scripture reference(s)" then
      { m with scriptureReference := some (trim (line.drop (i + 1))) }
    else if toLowerStr (trim (line.take i)) = str "book" then
      { m with book := some (trim (line.drop (i + 1))) }
    else m

/-- The source's section-kind inference in `createSection`. -/
def sectionTypeOf (lowerName : Str) : SectionType :=
  if strIncludes lowerName (str "chorus") then .chorus
  else if strIncludes lowerName (str "bridge") then .bridge
  else if strIncludes lowerName (str "intro") then .intro
  else if strIncludes lowerName (str "outro") || strIncludes lowerName (str "tag") then .outro
  else .verse

/-- The source's `createSection` (`line.slice(0, -1).trim()` drops the
final colon). -/
def createSection (line : Str) : SongSection :=
  ⟨sectionTypeOf (toLowerStr (trim line.dropLast)), trim line.dropLast, []⟩

/-- A bracket-pair match attempt right after a `[`: the greedy `[^\]]+`
run and the remainder after the closing `]`, when both exist. -/
def bracketMatchAt (rest : Str) : Option (Str × Str) :=
  if rest.takeWhile (fun x => !(x == ']')) = [] then none
  else
    match rest.dropWhile (fun x => !(x == ']')) with
    | [] => none
    | _ :: after => some (rest.takeWhile (fun x => !(x == ']')), after)

/-- Leftmost match of the regex `\[[^\]]+\]`: text before the match, the
matched text (brackets included), and the text after. -/
def findMatch : Str → Option (Str × Str × Str)
  | [] => none
  | c :: rest =>
    if c = '[' then
      match bracketMatchAt rest with
      | some (run, after) => some ([], '[' :: run ++ [']'], after)
      | none => (findMatch rest).map (fun p => (c :: p.1, p.2.1, p.2.2))
    else (findMatch rest).map (fun p => (c :: p.1, p.2.1, p.2.2))

/-- The source's `containsChords`: regex test for `\[[^\]]+\]`. -/
def containsChords (line : Str) : Bool := (findMatch line).isSome

/-- JS `line.split(/(\[[^\]]+\])/)` with the capture group kept: pieces
alternate unmatched text and matches.  Fuel-based so that the kernel can
evaluate it; the fuel `s.length + 1` always suffices because each match
consumes at least one character. -/
def splitChordsF : Nat → Str → List Str
  | 0, s => [s]
  | fuel + 1, s =>
    match findMatch s with
    | none => [s]
    | some (pre, m, after) => pre :: m :: splitChordsF fuel after

def splitChords (s : Str) : List Str := splitChordsF (s.length + 1) s

theorem splitChordsF_succ (fuel : Nat) (s : Str) :
    splitChordsF (fuel + 1) s =
      match findMatch s with
      | none => [s]
      | some (pre, m, after) => pre :: m :: splitChordsF fuel after := rfl

/-- The loop body of the source's `parseChordLyricLine`: fold the split
pieces, treating a piece that starts with `[` and ends with `]` as a chord
at the current position and anything else as lyrics. -/
def plBody : List Str → Nat → (Str × List ChordPosition)
  | [], _ => ([], [])
  | part :: rest, pos =>
    if startsWithChar part '[' && endsWithChar part ']' then
      ((plBody rest pos).1, ⟨(part.drop 1).dropLast, pos⟩ :: (plBody rest pos).2)
    else
      (part ++ (plBody rest (pos + part.length)).1, (plBody rest (pos + part.length)).2)

/-- The source's `parseChordLyricLine`. -/
def parseChordLyricLine (line : Str) : Option ChordLyricLine :=
  if trim line = [] then none
  else if containsChords line then
    some ⟨(plBody (splitChords line) 0).1, (plBody (splitChords line) 0).2⟩
  else some ⟨line, []⟩

/-- The `isSectionHeader` keyword test of the source's `parseChordPro`. -/
def sectionKeyword (lower : Str) : Bool :=
  strIncludes lower (str "verse") || strIncludes lower (str "chorus") ||
  strIncludes lower (str "bridge") || strIncludes lower (str "intro") ||
  strIncludes lower (str "outro") || strIncludes lower (str "tag")

/-- Parser state for the line loop of `parseChordPro`. -/
structure PState where
  meta : ChordProMetadata
  sections : List SongSection
  cur : Option SongSection
  deriving DecidableEq, Repr

/-- `sections.push(currentSection)` guarded by `if (currentSection)`. -/
def pushCur (cur : Option SongSection) (secs : List SongSection) : List SongSection :=
  match cur with
  | some s => secs ++ [s]
  | none => secs

/-- One iteration of the `parseChordPro` line loop, on a trimmed line. -/
def processTrimmed (st : PState) (line : Str) : PState :=
  if line = [] then st
  else if startsWithChar line '{' && endsWithChar line '}' then
    { st with meta := parseDirective line st.meta }
  else if endsWithChar line ':' && !containsChords line then
    if sectionKeyword (toLowerStr line) then
      { st with sections := pushCur st.cur st.sections, cur := some (createSection line) }
    else { st with meta := parseHeaderMetadata line st.meta }
  else if strContainsChar line ':' && !containsChords line && !endsWithChar line ':' then
    { st with meta := parseHeaderMetadata line st.meta }
  else
    match st.cur with
    | some sec =>
      if containsChords line || decide (0 < line.length) then
        match parseChordLyricLine line with
        | some cl => { st with cur := some { sec with content := sec.content ++ [cl] } }
        | none => st
      else st
    | none => st

/-- One iteration of the line loop (`const line = lines[i].trim()`). -/
def processLine (st : PState) (raw : Str) : PState := processTrimmed st (trim raw)

/-- JS `content.split('\n')`. -/
def splitLines (s : Str) : List Str := splitOnChar '\n' s

/-- The line loop of the source's `parseChordPro`. -/
def parseState (content : Str) : PState :=
  (splitLines content).foldl processLine ⟨initMeta, [], none⟩

/-- JS `a || d` for a possibly-absent, possibly-empty string. -/
def orElseStr (v : Option Str) (d : Str) : Str :=
  match v with
  | some s => if s = [] then d else s
  | none => d

/-- JS `metadata.capo || 0`: `undefined`, `NaN` and `0` are all falsy. -/
def capoJS (capo : Option (Option Int)) : Int :=
  match capo with
  | some (some n) => n
  | _ => 0

/-- The source's `parseChordPro`. -/
def parseChordPro (content : Str) (id : Str) : Song :=
  { id := id
    title := orElseStr (parseState content).meta.title (str "Unknown Title")
    artist := orElseStr (parseState content).meta.artist (str "Unknown Artist")
    originalKey :=
      orElseStr (parseState content).meta.originalKey
        (orElseStr (parseState content).meta.key (str "C"))
    capoPosition := capoJS (parseState content).meta.capo
    tempo := (parseState content).meta.tempo
    sections := pushCur (parseState content).cur (parseState content).sections }

/-! ### ChordPro serializer (`songToChordPro`) -/

/-- String form of a section type (`section.name || section.type` falls back
to the TS union literal). -/
def typeStr : SectionType → Str
  | .verse => str "verse"
  | .chorus => str "chorus"
  | .bridge => str "bridge"
  | .intro => str "intro"
  | .outro => str "outro"

/-- Stable insertion used to model ES2019+ stable
`[...chords].sort((a, b) => a.position - b.position)`. -/
def insertCP (x : ChordPosition) : List ChordPosition → List ChordPosition
  | [] => [x]
  | y :: ys => if y.position < x.position then y :: insertCP x ys else x :: y :: ys

def sortCP : List ChordPosition → List ChordPosition
  | [] => []
  | x :: xs => insertCP x (sortCP xs)

/-- JS `s.substring(a, b)`: clamps both ends to the length and swaps them
when `a > b`. -/
def substrJS (s : Str) (a b : Nat) : Str :=
  if a ≤ b then (s.take b).drop a else (s.take a).drop b

/-- The chord-interleaving loop of `songToChordPro` (sorted chords). -/
def serializeChordSeq (lyrics : Str) (cur : Nat) : List ChordPosition → Str
  | [] => lyrics.drop cur
  | cp :: rest =>
    substrJS lyrics cur cp.position ++ ('[' :: cp.chord ++ [']']) ++
      serializeChordSeq lyrics cp.position rest

/-- Serialization of one content line in `songToChordPro`. -/
def serializeLine (l : ChordLyricLine) : Str :=
  if l.chords = [] then l.lyrics
  else serializeChordSeq l.lyrics 0 (sortCP l.chords)

/-- The lines a section contributes (header, content lines, blank line). -/
def sectionPieces (sec : SongSection) : List Str :=
  ((if sec.name = [] then typeStr sec.type else sec.name) ++ [':']) ::
    (sec.content.map serializeLine ++ [[]])

/-- Every line `songToChordPro` emits, in order; the source appends `\n`
after each one. -/
def songPieces (s : Song) : List Str :=
  (str "Title: " ++ s.title) ::
  (str "Artist: " ++ s.artist) ::
  (str "Key: [" ++ s.originalKey ++ [']']) ::
  (str "Original Key: " ++ s.originalKey) ::
  ((if s.capoPosition = 0 then [] else [str "Capo: " ++ intToStr s.capoPosition]) ++
   (match s.tempo with
    | some (some n) => if n = 0 then [] else [str "Tempo: " ++ intToStr n]
    | _ => []) ++
   ([] :: (s.sections.map sectionPieces).flatten))

/-- The source's `songToChordPro`. -/
def songToChordPro (s : Song) : Str :=
  ((songPieces s).map (fun p => p ++ ['\n'])).flatten

/-! ### Structural lemmas about the parser -/

theorem strContainsChar_iff (s : Str) (c : Char) : strContainsChar s c = true ↔ c ∈ s := by
  unfold strContainsChar
  simp [List.contains]

theorem endsWithChar_false_of_not_mem (s : Str) (c : Char) (h : c ∉ s) :
    endsWithChar s c = false := by
  unfold endsWithChar
  cases hl : s.getLast? with
  | none => rfl
  | some a =>
    by_cases ha : a = c
    · exfalso
      apply h
      subst ha
      exact List.mem_of_mem_getLast? (by rw [hl]; rfl)
    · simp [ha]

theorem dropWhile_head_false {p : Char → Bool} {l : Str} {d : Char} {t : Str}
    (h : l.dropWhile p = d :: t) : p d = false := by
  induction l with
  | nil => cases h
  | cons x rest ih =>
    rw [List.dropWhile_cons] at h
    by_cases hx : p x = true
    · rw [if_pos hx] at h
      exact ih h
    · rw [if_neg hx] at h
      injection h with h1 h2
      subst h1
      exact Bool.eq_false_iff.mpr hx

theorem bracketMatchAt_some (rest run after : Str)
    (h : bracketMatchAt rest = some (run, after)) :
    run ≠ [] ∧ rest = run ++ ']' :: after ∧ ']' ∉ run := by
  unfold bracketMatchAt at h
  by_cases hrun : rest.takeWhile (fun x => !(x == ']')) = []
  · rw [if_pos hrun] at h; cases h
  · rw [if_neg hrun] at h
    cases hd : rest.dropWhile (fun x => !(x == ']')) with
    | nil => rw [hd] at h; cases h
    | cons d tail =>
      rw [hd] at h
      injection h with h
      injection h with h1 h2
      subst h1
      subst h2
      have hdc : d = ']' := by
        have := dropWhile_head_false hd
        simpa using this
      refine ⟨hrun, ?_, ?_⟩
      · conv_lhs => rw [← List.takeWhile_append_dropWhile (fun x => !(x == ']')) rest]
        rw [hd, hdc]
      · intro hmem
        have h7 := List.mem_takeWhile_imp hmem
        simp at h7

theorem findMatch_shape (s : Str) (pre m after : Str)
    (h : findMatch s = some (pre, m, after)) :
    ∃ run, run ≠ [] ∧ ']' ∉ run ∧ m = '[' :: run ++ [']'] := by
  induction s generalizing pre m after with
  | nil => cases h
  | cons c rest ih =>
    unfold findMatch at h
    by_cases hc : c = '['
    · rw [if_pos hc] at h
      cases hbm : bracketMatchAt rest with
      | some p =>
        rw [hbm] at h
        obtain ⟨run, after2⟩ := p
        injection h with h
        injection h with h1 h
        injection h with h2 h3
        obtain ⟨hne, -, hnm⟩ := bracketMatchAt_some rest run after2 hbm
        exact ⟨run, hne, hnm, h2.symm⟩
      | none =>
        rw [hbm] at h
        rcases Option.map_eq_some'.mp h with ⟨p, hp, hpe⟩
        obtain ⟨run, hne, hnm, hm⟩ := ih p.1 p.2.1 p.2.2 (by rw [hp])
        injection hpe with h1 h
        injection h with h2 h3
        exact ⟨run, hne, hnm, by rw [← h2, hm]⟩
    · rw [if_neg hc] at h
      rcases Option.map_eq_some'.mp h with ⟨p, hp, hpe⟩
      obtain ⟨run, hne, hnm, hm⟩ := ih p.1 p.2.1 p.2.2 (by rw [hp])
      injection hpe with h1 h
      injection h with h2 h3
      exact ⟨run, hne, hnm, by rw [← h2, hm]⟩

theorem chordShaped_of_shape (m run : Str) (hne : run ≠ [])
    (hm : m = '[' :: run ++ [']']) :
    (startsWithChar m '[' && endsWithChar m ']') = true := by
  subst hm
  apply Bool.and_eq_true_iff.mpr
  constructor
  · rfl
  · unfold endsWithChar
    rw [show ('[' :: run ++ [']'] : Str) = ('[' :: run) ++ [']'] from rfl]
    rw [List.getLast?_concat]
    simp

theorem plBody_chords_ne_nil (pre m : Str) (rest : List Str) (pos : Nat)
    (hm : (startsWithChar m '[' && endsWithChar m ']') = true) :
    (plBody (pre :: m :: rest) pos).2 ≠ [] := by
  unfold plBody
  by_cases hp : (startsWithChar pre '[' && endsWithChar pre ']') = true
  · rw [if_pos hp]; simp
  · rw [if_neg hp]
    unfold plBody
    rw [if_pos hm]
    simp

theorem parseCLL_chords_ne_nil (line : Str) (cl : ChordLyricLine)
    (hc : containsChords line = true) (h : parseChordLyricLine line = some cl) :
    cl.chords ≠ [] := by
  unfold parseChordLyricLine at h
  by_cases ht : trim line = []
  · rw [if_pos ht] at h; cases h
  · rw [if_neg ht, if_pos hc] at h
    injection h with h
    subst h
    unfold containsChords at hc
    rw [Option.isSome_iff_exists] at hc
    obtain ⟨⟨pre, m, after⟩, hfm⟩ := hc
    have hsplit : splitChords line = pre :: m :: splitChordsF line.length after := by
      unfold splitChords
      rw [splitChordsF_succ, hfm]
    obtain ⟨run, hne, -, hm⟩ := findMatch_shape line pre m after hfm
    rw [hsplit]
    exact plBody_chords_ne_nil pre m _ 0 (chordShaped_of_shape m run hne hm)

/-! ### Claim C10: invariant machinery -/

/-- A chord-free content line never carries a colon in its lyrics. -/
def lineInv (l : ChordLyricLine) : Prop := l.chords = [] → ':' ∉ l.lyrics

def secInv (sec : SongSection) : Prop := ∀ l ∈ sec.content, lineInv l

def stInv (st : PState) : Prop :=
  (∀ sec ∈ st.sections, secInv sec) ∧ (∀ sec, st.cur = some sec → secInv sec)

theorem foldl_pres {σ α : Type} (f : σ → α → σ) (P : σ → Prop)
    (hstep : ∀ s a, P s → P (f s a)) (l : List α) (s : σ) (hs : P s) :
    P (l.foldl f s) := by
  induction l generalizing s with
  | nil => exact hs
  | cons a t ih => exact ih _ (hstep s a hs)

theorem pushCur_secInv (cur : Option SongSection) (secs : List SongSection)
    (h1 : ∀ sec ∈ secs, secInv sec) (h2 : ∀ sec, cur = some sec → secInv sec) :
    ∀ sec ∈ pushCur cur secs, secInv sec := by
  intro sec hsec
  unfold pushCur at hsec
  cases hcur : cur with
  | none => rw [hcur] at hsec; exact h1 sec hsec
  | some s0 =>
    rw [hcur] at hsec
    rcases List.mem_append.mp hsec with hx | hx
    · exact h1 sec hx
    · rw [List.mem_singleton] at hx
      subst hx
      exact h2 sec hcur

theorem processTrimmed_stInv (st : PState) (line : Str) (h : stInv st) :
    stInv (processTrimmed st line) := by
  unfold processTrimmed
  by_cases h1 : line = []
  · rw [if_pos h1]; exact h
  rw [if_neg h1]
  by_cases h2 : (startsWithChar line '{' && endsWithChar line '}') = true
  · rw [if_pos h2]; exact h
  rw [if_neg h2]
  by_cases h3 : (endsWithChar line ':' && !containsChords line) = true
  · rw [if_pos h3]
    by_cases h4 : sectionKeyword (toLowerStr line) = true
    · rw [if_pos h4]
      refine ⟨pushCur_secInv st.cur st.sections h.1 h.2, ?_⟩
      intro sec hsec
      injection hsec with hsec
      subst hsec
      intro l hl
      unfold createSection at hl
      cases hl
    · rw [if_neg h4]; exact h
  rw [if_neg h3]
  by_cases h5 : (strContainsChar line ':' && !containsChords line && !endsWithChar line ':') = true
  · rw [if_pos h5]; exact h
  rw [if_neg h5]
  cases hcur : st.cur with
  | none => exact h
  | some sec =>
    dsimp only
    by_cases h6 : (containsChords line || decide (0 < line.length)) = true
    · rw [if_pos h6]
      cases hcl : parseChordLyricLine line with
      | none => exact h
      | some cl =>
        refine ⟨h.1, ?_⟩
        intro sec2 hsec2
        injection hsec2 with hsec2
        subst hsec2
        intro l hl
        rcases List.mem_append.mp hl with hx | hx
        · exact h.2 sec hcur l hx
        · rw [List.mem_singleton] at hx
          subst hx
          intro hch
          by_cases hcc : containsChords line = true
          · exact absurd hch (parseCLL_chords_ne_nil line l hcc hcl)
          · have hccf : containsChords line = false := Bool.eq_false_iff.mpr hcc
            have hcl2 : l = ⟨line, []⟩ := by
              unfold parseChordLyricLine at hcl
              by_cases htr : trim line = []
              · rw [if_pos htr] at hcl; cases hcl
              · rw [if_neg htr, hccf] at hcl
                simp at hcl
                rw [hcl]
            rw [hcl2]
            intro hmem
            have hctn : strContainsChar line ':' = true :=
              (strContainsChar_iff line ':').mpr hmem
            simp only [hccf, Bool.not_false, Bool.and_true, Bool.not_eq_true] at h3 h5
            rw [hctn, h3] at h5
            simp at h5
    · rw [if_neg h6]
      exact h

/-- Claim C10, counterexample: a trimmed line containing a colon in
non-final position and no chord token ("b: verse:") is NOT consumed as
song-level metadata: it ends with a colon and contains a section keyword,
so it opens a new section. -/
theorem colon_line_opens_section_counterexample :
    (parseChordPro (str "Intro:\nb: verse:\n") (str "i")).sections =
      [⟨SectionType.intro, str "Intro", []⟩, ⟨SectionType.verse, str "b: verse", []⟩] := by
  decide

/-- Claim C10, amended: a trimmed chord-free line with a colon in non-final
position is consumed as metadata unless it also ends with a colon and
contains a section keyword, in which case it opens a new section; in no
case does it become section content, so no chord-free content line of any
parsed Song has lyrics containing a colon. -/
theorem chordfree_content_no_colon :
    ∀ (content id : Str), ∀ sec ∈ (parseChordPro content id).sections,
      ∀ l ∈ sec.content, l.chords = [] → ':' ∉ l.lyrics := by
  intro content id sec hsec l hl hch
  have hinv : stInv (parseState content) := by
    unfold parseState
    refine foldl_pres processLine stInv ?_ _ _ ?_
    · intro s a hs
      unfold processLine
      exact processTrimmed_stInv s (trim a) hs
    · exact ⟨fun sec2 h2 => absurd h2 (List.not_mem_nil _), fun sec2 h2 => by cases h2⟩
  have hsec2 : sec ∈ pushCur (parseState content).cur (parseState content).sections := hsec
  exact pushCur_secInv _ _ hinv.1 hinv.2 sec hsec2 l hl hch

/-- Claim C10, witness: the invariant applied to a concrete parsed song. -/
theorem chordfree_content_no_colon_witness :
    ':' ∉ str "Hello" :=
  chordfree_content_no_colon (str "Verse 1:\nHello\n") (str "i")
    ⟨SectionType.verse, str "Verse 1", [⟨str "Hello", []⟩]⟩ (by decide)
    ⟨str "Hello", []⟩ (by decide) (by decide)

/-! ### Claims C8 and C9 -/

/-- Claim C8, counterexample: the unrecognized heading "Random:" does not
produce a verse section; it is consumed as metadata and the following
chord line is dropped because no section is open, so the parsed song has
no sections at all. -/
theorem unrecognized_heading_counterexample :
    (parseChordPro (str "Random:\nHello [G]x\n") (str "i")).sections = [] := by
  decide

/-- Claim C9, counterexample: a non-numeric Capo value parses to NaN in the
metadata, but the Song field does not carry it through: `metadata.capo || 0`
replaces it with the default 0. -/
theorem capo_nan_counterexample :
    (parseState (str "Capo: abc\n")).meta.capo = some none ∧
    (parseChordPro (str "Capo: abc\n") (str "i")).capoPosition = 0 := by
  refine ⟨by decide, by decide⟩

/-- Claim C9, amended: a non-numeric Tempo propagates the failed parse
(NaN) to the Song's tempo field untouched, but a non-numeric Capo does
not: the NaN is collapsed to the default 0 by `metadata.capo || 0`. -/
theorem tempo_nan_propagates :
    (∀ (content id : Str),
      (parseChordPro content id).tempo = (parseState content).meta.tempo ∧
      (parseChordPro content id).capoPosition = capoJS (parseState content).meta.capo) ∧
    (parseChordPro (str "Tempo: abc\n") (str "i")).tempo = some none ∧
    (parseState (str "Capo: abc\n")).meta.capo = some none ∧
    (parseChordPro (str "Capo: abc\n") (str "i")).capoPosition = 0 := by
  exact ⟨fun content id => ⟨rfl, rfl⟩, by decide, by decide, by decide⟩

/-! ### Claim C1: counterexample -/

/-- Structural equality of Songs: all fields the round-trip claim mentions
(everything except the caller-chosen id and the omitted date metadata). -/
def structEq (a b : Song) : Prop :=
  a.title = b.title ∧ a.artist = b.artist ∧ a.originalKey = b.originalKey ∧
  a.capoPosition = b.capoPosition ∧ a.tempo = b.tempo ∧ a.sections = b.sections

instance (a b : Song) : Decidable (structEq a b) := by
  unfold structEq; infer_instance

/-- Claim C1, counterexample: parsing "Tempo: 0" yields tempo 0, but
`songToChordPro` drops a zero tempo (it is falsy), so re-parsing the
serialization yields tempo undefined: the structured fields differ. -/
theorem parse_roundtrip_counterexample :
    (parseChordPro (str "Tempo: 0\n") (str "i")).tempo = some (some 0) ∧
    (parseChordPro (songToChordPro (parseChordPro (str "Tempo: 0\n") (str "i")))
        (str "i")).tempo = none ∧
    ¬ structEq (parseChordPro (songToChordPro (parseChordPro (str "Tempo: 0\n") (str "i")))
        (str "i")) (parseChordPro (str "Tempo: 0\n") (str "i")) := by
  refine ⟨by decide, by decide, by decide⟩

/-! ### Round-trip groundwork: trimming, line splitting, numbers -/

/-- Boundary check: first and last characters (when present) are not
whitespace; equivalent to the string being fixed by `trim`. -/
def trimmedB (t : Str) : Bool :=
  (match t.head? with | some c => !isWS c | none => true) &&
  (match t.getLast? with | some c => !isWS c | none => true)

theorem trimmedB_head (t : Str) (h : trimmedB t = true) (c : Char)
    (hc : t.head? = some c) : isWS c = false := by
  unfold trimmedB at h
  rw [hc, Bool.and_eq_true] at h
  simpa using h.1

theorem trimmedB_last (t : Str) (h : trimmedB t = true) (c : Char)
    (hc : t.getLast? = some c) : isWS c = false := by
  unfold trimmedB at h
  rw [hc, Bool.and_eq_true] at h
  simpa using h.2

theorem trimmedB_of_bounds (s : Str) (c d : Char) (h1 : s.head? = some c)
    (h2 : isWS c = false) (h3 : s.getLast? = some d) (h4 : isWS d = false) :
    trimmedB s = true := by
  unfold trimmedB
  rw [h1, h3]
  simp [h2, h4]

theorem trim_of_trimmed (t : Str) (h : trimmedB t = true) : trim t = t := by
  unfold trim
  have h1 : t.dropWhile isWS = t := by
    cases t with
    | nil => rfl
    | cons c r =>
      rw [List.dropWhile_cons, if_neg]
      simp [trimmedB_head _ h c rfl]
  rw [h1]
  have h2 : t.reverse.dropWhile isWS = t.reverse := by
    cases hr : t.reverse with
    | nil => rfl
    | cons d r2 =>
      have hd : t.getLast? = some d := by
        rw [← List.head?_reverse, hr]
        rfl
      rw [List.dropWhile_cons, if_neg]
      simp [trimmedB_last _ h d hd]
  rw [h2, List.reverse_reverse]

theorem trim_cons_ws (c : Char) (t : Str) (h : isWS c = true) :
    trim (c :: t) = trim t := by
  unfold trim
  rw [List.dropWhile_cons, if_pos h]

/-- Fixed-point of `trim`, from the boundary check, for a nonempty string:
the last character exists and is not whitespace. -/
theorem trimmedB_getLast (t : Str) (h : trimmedB t = true) (hne : t ≠ []) :
    ∃ d, t.getLast? = some d ∧ isWS d = false := by
  cases hl : t.getLast? with
  | none => exact absurd (List.getLast?_eq_none_iff.mp hl) hne
  | some d => exact ⟨d, rfl, trimmedB_last t h d hl⟩

theorem trimmedB_head_ex (t : Str) (h : trimmedB t = true) (hne : t ≠ []) :
    ∃ c t2, t = c :: t2 ∧ isWS c = false := by
  obtain ⟨c, t2, hct⟩ := List.exists_cons_of_ne_nil hne
  exact ⟨c, t2, hct, trimmedB_head t h c (by rw [hct]; rfl)⟩

theorem splitOnChar_append (sep : Char) (a b : Str) (h : sep ∉ a) :
    splitOnChar sep (a ++ sep :: b) = a :: splitOnChar sep b := by
  induction a with
  | nil => simp [splitOnChar]
  | cons c rest ih =>
    have hc : c ≠ sep := fun hx => h (hx ▸ List.mem_cons_self c rest)
    rw [List.cons_append]
    simp only [splitOnChar]
    rw [if_neg hc, ih (fun hx => h (List.mem_cons_of_mem c hx))]

theorem splitLines_pieces (pieces : List Str) (h : ∀ p ∈ pieces, '\n' ∉ p) :
    splitLines ((pieces.map (fun p => p ++ ['\n'])).flatten) = pieces ++ [[]] := by
  induction pieces with
  | nil => rfl
  | cons p rest ih =>
    have hflat : ((p :: rest).map (fun p => p ++ ['\n'])).flatten =
        p ++ '\n' :: (rest.map (fun p => p ++ ['\n'])).flatten := by
      simp
    unfold splitLines
    rw [hflat, splitOnChar_append '\n' p _ (h p (List.mem_cons_self p rest))]
    have ih2 := ih (fun q hq => h q (List.mem_cons_of_mem p hq))
    unfold splitLines at ih2
    rw [ih2]
    rfl

/-! ### Number rendering round-trips through `parseInt` -/

theorem natToStrF_fuel : ∀ (f1 n f2 : Nat), n < f1 → n < f2 →
    natToStrF f1 n = natToStrF f2 n := by
  intro f1
  induction f1 with
  | zero => intro n f2 h1 h2; omega
  | succ f ih =>
    intro n f2 h1 h2
    cases f2 with
    | zero => omega
    | succ g =>
      unfold natToStrF
      by_cases hn : n < 10
      · rw [if_pos hn, if_pos hn]
      · rw [if_neg hn, if_neg hn,
          ih (n / 10) g (by omega) (by omega)]

theorem natToStr_unfold (n : Nat) :
    natToStr n =
      if n < 10 then [digitChar10 n]
      else natToStr (n / 10) ++ [digitChar10 (n % 10)] := by
  unfold natToStr
  unfold natToStrF
  by_cases hn : n < 10
  · rw [if_pos hn, if_pos hn]
  · rw [if_neg hn, if_neg hn,
      natToStrF_fuel n (n / 10) (n / 10 + 1) (by omega) (by omega)]
    rfl

theorem digitChar10_props : ∀ d, d < 10 →
    isDigit10 (digitChar10 d) = true ∧ digitVal (digitChar10 d) = d := by
  decide

theorem digit_char_facts (c : Char) (h : isDigit10 c = true) :
    isWS c = false ∧ c ≠ '[' ∧ c ≠ ']' ∧ c ≠ ':' ∧ c ≠ '{' ∧ c ≠ '}' ∧
      c ≠ '\n' ∧ c ≠ '-' ∧ c ≠ '+' := by
  refine ⟨?_, ?_, ?_, ?_, ?_, ?_, ?_, ?_, ?_⟩
  · rcases Bool.eq_false_or_eq_true (isWS c) with ht | hf
    · exfalso
      simp only [isWS, Bool.or_eq_true, decide_eq_true_eq] at ht
      rcases ht with ((rfl | rfl) | rfl) | rfl <;> revert h <;> decide
    · exact hf
  all_goals intro hc; subst hc; revert h; decide

theorem natToStr_facts : ∀ n : Nat,
    natToStr n ≠ [] ∧ (∀ c ∈ natToStr n, isDigit10 c = true) := by
  intro n
  induction n using Nat.strong_induction_on with
  | _ n ih =>
    rw [natToStr_unfold]
    by_cases hn : n < 10
    · rw [if_pos hn]
      refine ⟨by simp, ?_⟩
      intro c hc
      rw [List.mem_singleton] at hc
      subst hc
      exact (digitChar10_props n hn).1
    · rw [if_neg hn]
      have h10 : n / 10 < n := Nat.div_lt_self (by omega) (by omega)
      refine ⟨by simp, ?_⟩
      intro c hc
      rcases List.mem_append.mp hc with hx | hx
      · exact (ih _ h10).2 c hx
      · rw [List.mem_singleton] at hx
        subst hx
        exact (digitChar10_props _ (Nat.mod_lt _ (by omega))).1

theorem digitsVal_concat (a : Str) (d : Char) :
    digitsVal (a ++ [d]) = digitsVal a * 10 + digitVal d := by
  unfold digitsVal
  rw [List.foldl_append]
  rfl

theorem digitsVal_natToStr : ∀ n : Nat, digitsVal (natToStr n) = n := by
  intro n
  induction n using Nat.strong_induction_on with
  | _ n ih =>
    rw [natToStr_unfold]
    by_cases hn : n < 10
    · rw [if_pos hn]
      unfold digitsVal
      simp only [List.foldl_cons, List.foldl_nil]
      rw [(digitChar10_props n hn).2]
      omega
    · rw [if_neg hn]
      have h10 : n / 10 < n := Nat.div_lt_self (by omega) (by omega)
      rw [digitsVal_concat, ih _ h10, (digitChar10_props (n % 10) (Nat.mod_lt _ (by omega))).2]
      omega

theorem parseDigits_natToStr (n : Nat) : parseDigits (natToStr n) = some n := by
  unfold parseDigits
  rw [List.takeWhile_eq_self_iff.mpr (natToStr_facts n).2,
    if_neg (natToStr_facts n).1, digitsVal_natToStr]

theorem parseIntJS_cons (c : Char) (r : Str) (hws : isWS c = false) :
    parseIntJS (c :: r) =
      if c = '-' then (parseDigits r).map (fun v => -(v : Int))
      else if c = '+' then (parseDigits r).map (fun v => (v : Int))
      else (parseDigits (c :: r)).map (fun v => (v : Int)) := by
  unfold parseIntJS
  rw [show (c :: r).dropWhile isWS = c :: r from by
    rw [List.dropWhile_cons, if_neg (by simp [hws])]]

theorem parseIntJS_intToStr (n : Int) : parseIntJS (intToStr n) = some n := by
  unfold intToStr
  by_cases hn : n < 0
  · rw [if_pos hn, parseIntJS_cons '-' _ (by decide), if_pos rfl,
      parseDigits_natToStr]
    show some (-(n.natAbs : Int)) = some n
    simp only [Option.some.injEq]
    omega
  · rw [if_neg hn]
    obtain ⟨d, tl, hcons⟩ :=
      List.exists_cons_of_ne_nil (natToStr_facts n.natAbs).1
    have hdig : isDigit10 d = true :=
      (natToStr_facts n.natAbs).2 d (by rw [hcons]; exact List.mem_cons_self d tl)
    have hf := digit_char_facts d hdig
    rw [hcons, parseIntJS_cons d tl hf.1, if_neg hf.2.2.2.2.2.2.2.1,
      if_neg hf.2.2.2.2.2.2.2.2, ← hcons, parseDigits_natToStr]
    show some ((n.natAbs : Int)) = some n
    simp only [Option.some.injEq]
    omega

theorem intToStr_chars (n : Int) :
    ∀ c ∈ intToStr n, c = '-' ∨ isDigit10 c = true := by
  intro c hc
  unfold intToStr at hc
  by_cases hn : n < 0
  · rw [if_pos hn] at hc
    rcases List.mem_cons.mp hc with rfl | hx
    · exact Or.inl rfl
    · exact Or.inr ((natToStr_facts n.natAbs).2 c hx)
  · rw [if_neg hn] at hc
    exact Or.inr ((natToStr_facts n.natAbs).2 c hc)

theorem intToStr_ne_nil (n : Int) : intToStr n ≠ [] := by
  unfold intToStr
  by_cases hn : n < 0
  · rw [if_pos hn]; simp
  · rw [if_neg hn]; exact (natToStr_facts n.natAbs).1

theorem intToStr_last_digit (n : Int) :
    ∃ d, (intToStr n).getLast? = some d ∧ isDigit10 d = true := by
  obtain ⟨d, hd⟩ : ∃ d, (natToStr n.natAbs).getLast? = some d := by
    cases hl : (natToStr n.natAbs).getLast? with
    | none => exact absurd (List.getLast?_eq_none_iff.mp hl) (natToStr_facts n.natAbs).1
    | some d => exact ⟨d, rfl⟩
  have hdig : isDigit10 d = true :=
    (natToStr_facts n.natAbs).2 d (List.mem_of_mem_getLast? (by rw [hd]; rfl))
  unfold intToStr
  by_cases hn : n < 0
  · rw [if_pos hn]
    refine ⟨d, ?_, hdig⟩
    rw [show ('-' :: natToStr n.natAbs : Str) = ['-'] ++ natToStr n.natAbs from rfl,
      List.getLast?_append_of_ne_nil _ (natToStr_facts n.natAbs).1, hd]
  · rw [if_neg hn]
    exact ⟨d, hd, hdig⟩

/-! ### Round-trip groundwork: chord-line serialization inverts parsing -/

theorem findMatch_none_of_no_lbracket (s : Str) (h : '[' ∉ s) :
    findMatch s = none := by
  induction s with
  | nil => rfl
  | cons c rest ih =>
    have hc : c ≠ '[' := fun hx => h (hx ▸ List.mem_cons_self c rest)
    simp only [findMatch]
    rw [if_neg hc, ih (fun hx => h (List.mem_cons_of_mem c hx))]
    rfl

theorem containsChords_false_of_no_lbracket (s : Str) (h : '[' ∉ s) :
    containsChords s = false := by
  unfold containsChords
  rw [findMatch_none_of_no_lbracket s h]
  rfl

theorem takeWhile_run (run tail : Str) (h : ']' ∉ run) :
    (run ++ ']' :: tail).takeWhile (fun x => !(x == ']')) = run := by
  induction run with
  | nil => simp [List.takeWhile_cons]
  | cons c rest ih =>
    have hc : c ≠ ']' := fun hx => h (hx ▸ List.mem_cons_self c rest)
    rw [List.cons_append, List.takeWhile_cons, if_pos (by simp [hc]),
      ih (fun hx => h (List.mem_cons_of_mem c hx))]

theorem dropWhile_run (run tail : Str) (h : ']' ∉ run) :
    (run ++ ']' :: tail).dropWhile (fun x => !(x == ']')) = ']' :: tail := by
  induction run with
  | nil => simp [List.dropWhile_cons]
  | cons c rest ih =>
    have hc : c ≠ ']' := fun hx => h (hx ▸ List.mem_cons_self c rest)
    rw [List.cons_append, List.dropWhile_cons, if_pos (by simp [hc]),
      ih (fun hx => h (List.mem_cons_of_mem c hx))]

theorem bracketMatchAt_run (run tail : Str) (hne : run ≠ []) (h : ']' ∉ run) :
    bracketMatchAt (run ++ ']' :: tail) = some (run, tail) := by
  unfold bracketMatchAt
  rw [takeWhile_run run tail h, dropWhile_run run tail h, if_neg hne]

theorem findMatch_append (pre run tail : Str) (hp : '[' ∉ pre)
    (hr1 : run ≠ []) (hr2 : ']' ∉ run) :
    findMatch (pre ++ '[' :: (run ++ ']' :: tail)) =
      some (pre, '[' :: run ++ [']'], tail) := by
  induction pre with
  | nil =>
    simp only [List.nil_append, findMatch]
    rw [if_pos trivial, bracketMatchAt_run run tail hr1 hr2]
  | cons c pre2 ih =>
    have hc : c ≠ '[' := fun hx => hp (hx ▸ List.mem_cons_self c pre2)
    rw [List.cons_append]
    simp only [findMatch]
    rw [if_neg hc, ih (fun hx => hp (List.mem_cons_of_mem c hx))]
    rfl

theorem findMatch_after_lt (s : Str) (pre m after : Str)
    (h : findMatch s = some (pre, m, after)) : after.length < s.length := by
  induction s generalizing pre m after with
  | nil => cases h
  | cons c rest ih =>
    simp only [findMatch] at h
    by_cases hc : c = '['
    · rw [if_pos hc] at h
      cases hbm : bracketMatchAt rest with
      | some p =>
        rw [hbm] at h
        obtain ⟨run, after2⟩ := p
        injection h with h
        injection h with h1 h
        injection h with h2 h3
        subst h3
        obtain ⟨hne, heq, -⟩ := bracketMatchAt_some rest run after2 hbm
        have : rest.length = run.length + 1 + after2.length := by
          rw [heq]; simp; omega
        simp
        omega
      | none =>
        rw [hbm] at h
        rcases Option.map_eq_some'.mp h with ⟨p, hp, hpe⟩
        have := ih p.1 p.2.1 p.2.2 (by rw [hp])
        injection hpe with h1 h
        injection h with h2 h3
        subst h3
        simp
        omega
    · rw [if_neg hc] at h
      rcases Option.map_eq_some'.mp h with ⟨p, hp, hpe⟩
      have := ih p.1 p.2.1 p.2.2 (by rw [hp])
      injection hpe with h1 h
      injection h with h2 h3
      subst h3
      simp
      omega

theorem splitChordsF_fuel : ∀ (f1 : Nat) (s : Str) (f2 : Nat),
    s.length < f1 → s.length < f2 → splitChordsF f1 s = splitChordsF f2 s := by
  intro f1
  induction f1 with
  | zero => intro s f2 h1; omega
  | succ f ih =>
    intro s f2 h1 h2
    cases f2 with
    | zero => omega
    | succ g =>
      rw [splitChordsF_succ, splitChordsF_succ]
      cases hfm : findMatch s with
      | none => rfl
      | some p =>
        obtain ⟨pre, m, after⟩ := p
        have hlt := findMatch_after_lt s pre m after hfm
        dsimp only
        rw [ih after g (by omega) (by omega)]

theorem splitChords_some (s pre m after : Str)
    (h : findMatch s = some (pre, m, after)) :
    splitChords s = pre :: m :: splitChords after := by
  unfold splitChords
  rw [splitChordsF_succ, h]
  have hlt := findMatch_after_lt s pre m after h
  dsimp only
  rw [splitChordsF_fuel s.length after (after.length + 1) (by omega) (by omega)]

theorem splitChords_none (s : Str) (h : findMatch s = none) :
    splitChords s = [s] := by
  unfold splitChords
  rw [splitChordsF_succ, h]

theorem startsWithChar_false_of_not_mem (s : Str) (c : Char) (h : c ∉ s) :
    startsWithChar s c = false := by
  cases s with
  | nil => rfl
  | cons a rest =>
    unfold startsWithChar
    simp only [decide_eq_false_iff_not]
    intro hx
    exact h (hx ▸ List.mem_cons_self a rest)

/-- Nondecreasing consecutive chord positions (the sorted-order check used
by the round-trip well-formedness predicate). -/
def sortedPosB : List ChordPosition → Bool
  | [] => true
  | [_] => true
  | a :: b :: r => decide (a.position ≤ b.position) && sortedPosB (b :: r)

/-- Positions constraint for the interleaving proof: starting from `cur`,
the chord positions are nondecreasing and bounded by `bound`. -/
def chainLB (bound : Nat) : Nat → List ChordPosition → Prop
  | _, [] => True
  | cur, cp :: rest =>
    cur ≤ cp.position ∧ cp.position ≤ bound ∧ chainLB bound cp.position rest

theorem sortedPosB_chainLB (bound : Nat) (cls : List ChordPosition)
    (hs : sortedPosB cls = true) (hb : ∀ cp ∈ cls, cp.position ≤ bound) :
    ∀ cur, (∀ cp ∈ cls.head?, cur ≤ cp.position) → chainLB bound cur cls := by
  induction cls with
  | nil => intro cur h; trivial
  | cons cp rest ih =>
    intro cur hcur
    refine ⟨hcur cp rfl, hb cp (List.mem_cons_self cp rest), ?_⟩
    have hs2 : sortedPosB rest = true := by
      cases rest with
      | nil => rfl
      | cons cq r2 =>
        unfold sortedPosB at hs
        exact (Bool.and_eq_true_iff.mp hs).2
    refine ih hs2 (fun cq hq => hb cq (List.mem_cons_of_mem cp hq)) cp.position ?_
    intro cq hq
    cases rest with
    | nil => cases hq
    | cons cq2 r2 =>
      unfold sortedPosB at hs
      have := (Bool.and_eq_true_iff.mp hs).1
      simp only [Option.mem_def, List.head?_cons, Option.some.injEq] at hq
      subst hq
      simpa using this

theorem substrJS_of_le (ly : Str) (a b : Nat) (h : a ≤ b) :
    substrJS ly a b = (ly.take b).drop a := by
  unfold substrJS
  rw [if_pos h]

theorem length_take_drop (ly : Str) (a b : Nat) (h1 : a ≤ b) (h2 : b ≤ ly.length) :
    ((ly.take b).drop a).length = b - a := by
  rw [List.length_drop, List.length_take]
  omega

theorem take_drop_glue (ly : Str) (a b : Nat) (h1 : a ≤ b) (h2 : b ≤ ly.length) :
    (ly.take b).drop a ++ ly.drop b = ly.drop a := by
  have h3 : (ly.take b).drop a = (ly.drop a).take (b - a) := List.drop_take ..
  have h4 : (ly.drop a).drop (b - a) = ly.drop b := by
    rw [List.drop_drop]
    have : a + (b - a) = b := by omega
    rw [this]
  rw [h3, ← h4, List.take_append_drop]

theorem mem_take_drop (ly : Str) (a b : Nat) (c : Char)
    (h : c ∈ (ly.take b).drop a) : c ∈ ly :=
  List.mem_of_mem_take (List.mem_of_mem_drop h)

/-- The central reconstruction lemma: parsing the serialized interleaving of
bracket-free lyrics with sorted, bounded, bracket-free chords recovers the
lyrics tail and the chord list exactly. -/
theorem plBody_interleave (ly : Str) (hl1 : '[' ∉ ly) (hl2 : ']' ∉ ly) :
    ∀ (cls : List ChordPosition) (cur : Nat), cur ≤ ly.length →
      chainLB ly.length cur cls →
      (∀ cp ∈ cls, cp.chord ≠ [] ∧ '[' ∉ cp.chord ∧ ']' ∉ cp.chord) →
      plBody (splitChords (serializeChordSeq ly cur cls)) cur = (ly.drop cur, cls) := by
  intro cls
  induction cls with
  | nil =>
    intro cur hcur hchain hcp
    show plBody (splitChords (ly.drop cur)) cur = (ly.drop cur, [])
    rw [splitChords_none _ (findMatch_none_of_no_lbracket _
      (fun hx => hl1 (List.mem_of_mem_drop hx)))]
    unfold plBody
    rw [if_neg (by
      rw [startsWithChar_false_of_not_mem _ '['
        (fun hx => hl1 (List.mem_of_mem_drop hx))]
      simp)]
    simp [plBody]
  | cons cp rest ih =>
    intro cur hcur hchain hcp
    obtain ⟨hc1, hc2, hchain2⟩ := hchain
    obtain ⟨hcne, hcl, hcr⟩ := hcp cp (List.mem_cons_self cp rest)
    show plBody (splitChords (substrJS ly cur cp.position ++
      ('[' :: cp.chord ++ [']']) ++ serializeChordSeq ly cp.position rest)) cur =
      (ly.drop cur, cp :: rest)
    rw [substrJS_of_le ly cur cp.position hc1]
    have hpre1 : '[' ∉ (ly.take cp.position).drop cur :=
      fun hx => hl1 (mem_take_drop ly cur cp.position '[' hx)
    have hpre2 : ']' ∉ (ly.take cp.position).drop cur :=
      fun hx => hl2 (mem_take_drop ly cur cp.position ']' hx)
    have hassoc : (ly.take cp.position).drop cur ++ ('[' :: cp.chord ++ [']']) ++
        serializeChordSeq ly cp.position rest =
        (ly.take cp.position).drop cur ++
          '[' :: (cp.chord ++ ']' :: serializeChordSeq ly cp.position rest) := by
      simp
    rw [hassoc]
    have hfm := findMatch_append ((ly.take cp.position).drop cur) cp.chord
      (serializeChordSeq ly cp.position rest) hpre1 hcne hcr
    rw [splitChords_some _ _ _ _ hfm]
    unfold plBody
    rw [if_neg (by
      rw [startsWithChar_false_of_not_mem _ '[' hpre1]
      simp)]
    unfold plBody
    rw [if_pos (chordShaped_of_shape _ cp.chord hcne rfl)]
    have hrec := ih cp.position hc2 hchain2
      (fun cq hq => hcp cq (List.mem_cons_of_mem cp hq))
    have hlen : ((ly.take cp.position).drop cur).length = cp.position - cur :=
      length_take_drop ly cur cp.position hc1 hc2
    rw [hlen]
    have hcur2 : cur + (cp.position - cur) = cp.position := by omega
    rw [hcur2]
    rw [hrec]
    have hchord : (('[' :: cp.chord ++ [']']).drop 1).dropLast = cp.chord := by
      simp [List.dropLast_concat]
    rw [hchord]
    rw [take_drop_glue ly cur cp.position hc1 hc2]

/-! ### Serializer-normal form: the well-formedness predicate for round-trips -/

/-- Chord annotation acceptable to the round trip: nonempty, bracket-free,
newline-free, and positioned within the lyrics. -/
def chordOKb (len : Nat) (cp : ChordPosition) : Bool :=
  decide (cp.chord ≠ []) && !strContainsChar cp.chord '[' &&
  !strContainsChar cp.chord ']' && !strContainsChar cp.chord '\n' &&
  decide (cp.position ≤ len)

/-- Content line in serializer-normal form.  A chord-free line must be a
trimmed, nonempty, colon-free, chord-free, non-directive lyric; a line with
chords must have bracket-free lyrics, well-formed chords sorted by position,
and serialize to a trimmed, non-directive string. -/
def lineWFb (cl : ChordLyricLine) : Bool :=
  !strContainsChar cl.lyrics '\n' &&
  (if cl.chords = [] then
    trimmedB cl.lyrics && decide (cl.lyrics ≠ []) &&
    !strContainsChar cl.lyrics ':' && !containsChords cl.lyrics &&
    !(startsWithChar cl.lyrics '{' && endsWithChar cl.lyrics '}')
  else
    !strContainsChar cl.lyrics '[' && !strContainsChar cl.lyrics ']' &&
    cl.chords.all (chordOKb cl.lyrics.length) && sortedPosB cl.chords &&
    trimmedB (serializeLine cl) &&
    !(startsWithChar (serializeLine cl) '{' && endsWithChar (serializeLine cl) '}'))

/-- Section in serializer-normal form: trimmed nonempty newline-free
chord-free name that carries a section keyword, a kind consistent with the
name, and well-formed content lines. -/
def secWFb (sec : SongSection) : Bool :=
  trimmedB sec.name && decide (sec.name ≠ []) && !strContainsChar sec.name '\n' &&
  !containsChords (sec.name ++ [':']) &&
  sectionKeyword (toLowerStr (sec.name ++ [':'])) &&
  decide (sectionTypeOf (toLowerStr sec.name) = sec.type) &&
  sec.content.all lineWFb

/-- Metadata field value acceptable to the round trip, for the header line
`pre ++ t` the serializer emits: trimmed, nonempty, newline-free, and the
emitted line neither contains chords nor doubles as a section header. -/
def metaFieldOK (pre t : Str) : Bool :=
  trimmedB t && decide (t ≠ []) && !strContainsChar t '\n' &&
  !containsChords (pre ++ t) &&
  !(endsWithChar (pre ++ t) ':' && sectionKeyword (toLowerStr (pre ++ t)))

/-- Tempo acceptable to the round trip: absent, or a nonzero number
(`songToChordPro` drops a zero or `NaN` tempo, both being falsy). -/
def tempoOKb : Option (Option Int) → Bool
  | none => true
  | some (some n) => decide (n ≠ 0)
  | some none => false

/-- Serializer-normal form of a whole Song: every structured field survives
the `songToChordPro`/`parseChordPro` round trip. -/
def songWF (s : Song) : Bool :=
  metaFieldOK (str "Title: ") s.title &&
  metaFieldOK (str "Artist: ") s.artist &&
  metaFieldOK (str "Original Key: ") s.originalKey &&
  tempoOKb s.tempo &&
  s.sections.all secWFb

/-! ### Sorting a sorted chord list is the identity -/

theorem insertCP_of_le (x : ChordPosition) (l : List ChordPosition)
    (h : ∀ y, l.head? = some y → x.position ≤ y.position) : insertCP x l = x :: l := by
  cases l with
  | nil => rfl
  | cons y ys =>
    unfold insertCP
    rw [if_neg (Nat.not_lt.mpr (h y rfl))]

theorem sortedPosB_tail (x : ChordPosition) (xs : List ChordPosition)
    (h : sortedPosB (x :: xs) = true) : sortedPosB xs = true := by
  cases xs with
  | nil => rfl
  | cons y ys =>
    unfold sortedPosB at h
    exact (Bool.and_eq_true_iff.mp h).2

theorem sortCP_sorted_id (l : List ChordPosition) (h : sortedPosB l = true) :
    sortCP l = l := by
  induction l with
  | nil => rfl
  | cons x xs ih =>
    unfold sortCP
    rw [ih (sortedPosB_tail x xs h)]
    apply insertCP_of_le
    intro y hy
    cases xs with
    | nil => cases hy
    | cons z zs =>
      unfold sortedPosB at h
      have h1 := (Bool.and_eq_true_iff.mp h).1
      injection hy with hy
      subst hy
      simpa using h1

/-! ### Character membership in serialized pieces -/

theorem not_mem_of_strContainsChar_false (s : Str) (c : Char)
    (h : strContainsChar s c = false) : c ∉ s := by
  intro hx
  rw [(strContainsChar_iff s c).mpr hx] at h
  exact absurd h (by decide)

theorem mem_serializeChordSeq (ly : Str) (c : Char) :
    ∀ (cls : List ChordPosition) (cur : Nat), c ∈ serializeChordSeq ly cur cls →
      c ∈ ly ∨ c = '[' ∨ c = ']' ∨ ∃ cp ∈ cls, c ∈ cp.chord := by
  intro cls
  induction cls with
  | nil =>
    intro cur hc
    exact Or.inl (List.mem_of_mem_drop hc)
  | cons cp rest ih =>
    intro cur hc
    unfold serializeChordSeq at hc
    rcases List.mem_append.mp hc with hx | hx
    · rcases List.mem_append.mp hx with hy | hy
      · left
        unfold substrJS at hy
        by_cases hab : cur ≤ cp.position
        · rw [if_pos hab] at hy
          exact mem_take_drop ly cur cp.position c hy
        · rw [if_neg hab] at hy
          exact mem_take_drop ly cp.position cur c hy
      · rcases List.mem_cons.mp hy with rfl | hz
        · exact Or.inr (Or.inl rfl)
        · rcases List.mem_append.mp hz with hw | hw
          · exact Or.inr (Or.inr (Or.inr ⟨cp, List.mem_cons_self cp rest, hw⟩))
          · rw [List.mem_singleton] at hw
            exact Or.inr (Or.inr (Or.inl hw))
    · rcases ih cp.position hx with h | h | h | ⟨cq, hq1, hq2⟩
      · exact Or.inl h
      · exact Or.inr (Or.inl h)
      · exact Or.inr (Or.inr (Or.inl h))
      · exact Or.inr (Or.inr (Or.inr ⟨cq, List.mem_cons_of_mem cp hq1, hq2⟩))

theorem noNL_serializeLine (cl : ChordLyricLine) (h : lineWFb cl = true) :
    '\n' ∉ serializeLine cl := by
  unfold lineWFb at h
  rw [Bool.and_eq_true] at h
  obtain ⟨hnl, h⟩ := h
  have hnly : '\n' ∉ cl.lyrics :=
    not_mem_of_strContainsChar_false _ _ (by simpa using hnl)
  by_cases hch : cl.chords = []
  · unfold serializeLine
    rw [if_pos hch]
    exact hnly
  · rw [if_neg hch] at h
    simp only [Bool.and_eq_true, Bool.not_eq_true', List.all_eq_true] at h
    obtain ⟨⟨⟨⟨⟨hl1, hl2⟩, hall⟩, hsort⟩, htrm⟩, hdir⟩ := h
    unfold serializeLine
    rw [if_neg hch, sortCP_sorted_id _ hsort]
    intro hx
    rcases mem_serializeChordSeq cl.lyrics '\n' cl.chords 0 hx with h | h | h | ⟨cq, hq1, hq2⟩
    · exact hnly h
    · exact absurd h (by decide)
    · exact absurd h (by decide)
    · have := hall cq hq1
      unfold chordOKb at this
      simp only [Bool.and_eq_true, Bool.not_eq_true', decide_eq_true_eq] at this
      exact not_mem_of_strContainsChar_false _ _ this.1.2 hq2

/-! ### Content lines round-trip through `parseChordLyricLine` -/

theorem mem_dropWhile_of_not (p : Char → Bool) (c : Char) (hc : p c = false) :
    ∀ l : Str, c ∈ l → c ∈ l.dropWhile p := by
  intro l
  induction l with
  | nil => intro h; cases h
  | cons a r ih =>
    intro h
    rw [List.dropWhile_cons]
    by_cases ha : p a = true
    · rw [if_pos ha]
      rcases List.mem_cons.mp h with rfl | hx
      · rw [ha] at hc; cases hc
      · exact ih hx
    · rw [if_neg ha]
      exact h

theorem trim_ne_nil_of_mem (s : Str) (c : Char) (hc : c ∈ s) (hw : isWS c = false) :
    trim s ≠ [] := by
  intro h
  unfold trim at h
  rw [List.reverse_eq_nil_iff] at h
  have h2 := List.dropWhile_eq_nil_iff.mp h
  have h3 : c ∈ (s.dropWhile isWS).reverse :=
    List.mem_reverse.mpr (mem_dropWhile_of_not isWS c hw s hc)
  have h4 := h2 c h3
  rw [hw] at h4
  cases h4

theorem serializeChordSeq_zero_shape (ly : Str) (cp : ChordPosition)
    (rest : List ChordPosition) :
    serializeChordSeq ly 0 (cp :: rest) =
      ly.take cp.position ++
        '[' :: (cp.chord ++ ']' :: serializeChordSeq ly cp.position rest) := by
  show substrJS ly 0 cp.position ++ ('[' :: cp.chord ++ [']']) ++
      serializeChordSeq ly cp.position rest = _
  rw [substrJS_of_le ly 0 cp.position (Nat.zero_le _), List.drop_zero]
  simp

theorem chainLB_of_sorted (len : Nat) (cls : List ChordPosition)
    (hs : sortedPosB cls = true) (hb : ∀ cp ∈ cls, cp.position ≤ len) :
    chainLB len 0 cls :=
  sortedPosB_chainLB len cls hs hb 0 (fun _ _ => Nat.zero_le _)

theorem findMatch_serializeChordSeq (ly : Str) (hl1 : '[' ∉ ly)
    (cp : ChordPosition) (rest : List ChordPosition)
    (hcne : cp.chord ≠ []) (hcr : ']' ∉ cp.chord) :
    findMatch (serializeChordSeq ly 0 (cp :: rest)) =
      some (ly.take cp.position, '[' :: cp.chord ++ [']'],
        serializeChordSeq ly cp.position rest) := by
  rw [serializeChordSeq_zero_shape]
  exact findMatch_append _ _ _ (fun hx => hl1 (List.mem_of_mem_take hx)) hcne hcr

theorem parseCLL_plain (ly : Str) (htr : trimmedB ly = true) (hne : ly ≠ [])
    (hnc : containsChords ly = false) :
    parseChordLyricLine ly = some ⟨ly, []⟩ := by
  unfold parseChordLyricLine
  rw [trim_of_trimmed ly htr, if_neg hne, if_neg (by simp [hnc])]

theorem parseCLL_serialized (ly : Str) (hl1 : '[' ∉ ly) (hl2 : ']' ∉ ly)
    (cls : List ChordPosition) (hne : cls ≠ [])
    (hchain : chainLB ly.length 0 cls)
    (hcp : ∀ cp ∈ cls, cp.chord ≠ [] ∧ '[' ∉ cp.chord ∧ ']' ∉ cp.chord) :
    parseChordLyricLine (serializeChordSeq ly 0 cls) = some ⟨ly, cls⟩ := by
  cases cls with
  | nil => cases hne rfl
  | cons cp rest =>
    obtain ⟨hcne, hcl, hcr⟩ := hcp cp (List.mem_cons_self cp rest)
    have hfm := findMatch_serializeChordSeq ly hl1 cp rest hcne hcr
    have hmem : '[' ∈ serializeChordSeq ly 0 (cp :: rest) := by
      rw [serializeChordSeq_zero_shape]
      exact List.mem_append.mpr (Or.inr (List.mem_cons_self _ _))
    unfold parseChordLyricLine
    rw [if_neg (trim_ne_nil_of_mem _ '[' hmem (by decide))]
    rw [if_pos (by unfold containsChords; rw [hfm]; rfl)]
    rw [plBody_interleave ly hl1 hl2 (cp :: rest) 0 (Nat.zero_le _) hchain hcp]
    simp

theorem containsChords_serialized (ly : Str) (hl1 : '[' ∉ ly)
    (cp : ChordPosition) (rest : List ChordPosition)
    (hcne : cp.chord ≠ []) (hcr : ']' ∉ cp.chord) :
    containsChords (serializeChordSeq ly 0 (cp :: rest)) = true := by
  unfold containsChords
  rw [findMatch_serializeChordSeq ly hl1 cp rest hcne hcr]
  rfl

theorem parseCLL_serializeLine (cl : ChordLyricLine) (h : lineWFb cl = true) :
    parseChordLyricLine (serializeLine cl) = some cl := by
  unfold lineWFb at h
  rw [Bool.and_eq_true] at h
  obtain ⟨hnl, h⟩ := h
  by_cases hch : cl.chords = []
  · rw [if_pos hch] at h
    simp only [Bool.and_eq_true, Bool.not_eq_true', decide_eq_true_eq] at h
    obtain ⟨⟨⟨⟨htr, hne⟩, hcol⟩, hnc⟩, hdir⟩ := h
    have hser : serializeLine cl = cl.lyrics := by
      unfold serializeLine
      rw [if_pos hch]
    rw [hser, parseCLL_plain cl.lyrics htr hne hnc]
    obtain ⟨ly, cls⟩ := cl
    simp only at hch
    subst hch
    rfl
  · rw [if_neg hch] at h
    simp only [Bool.and_eq_true, Bool.not_eq_true', decide_eq_true_eq,
      List.all_eq_true] at h
    obtain ⟨⟨⟨⟨⟨hl1, hl2⟩, hall⟩, hsort⟩, htrm⟩, hdir⟩ := h
    have hcpf : ∀ cp ∈ cl.chords, cp.chord ≠ [] ∧ '[' ∉ cp.chord ∧ ']' ∉ cp.chord := by
      intro cp hcp
      have := hall cp hcp
      unfold chordOKb at this
      simp only [Bool.and_eq_true, Bool.not_eq_true', decide_eq_true_eq] at this
      exact ⟨this.1.1.1.1, not_mem_of_strContainsChar_false _ _ this.1.1.1.2,
        not_mem_of_strContainsChar_false _ _ this.1.1.2⟩
    have hbnd : ∀ cp ∈ cl.chords, cp.position ≤ cl.lyrics.length := by
      intro cp hcp
      have := hall cp hcp
      unfold chordOKb at this
      simp only [Bool.and_eq_true, Bool.not_eq_true', decide_eq_true_eq] at this
      exact this.2
    have hser : serializeLine cl = serializeChordSeq cl.lyrics 0 cl.chords := by
      unfold serializeLine
      rw [if_neg hch, sortCP_sorted_id _ hsort]
    rw [hser, parseCLL_serialized cl.lyrics
      (not_mem_of_strContainsChar_false _ _ hl1)
      (not_mem_of_strContainsChar_false _ _ hl2)
      cl.chords hch (chainLB_of_sorted _ _ hsort hbnd) hcpf]

/-! ### Line classification in the parser loop -/

theorem append_ne_nil_right (a b : Str) (h : b ≠ []) : a ++ b ≠ [] := by
  intro hx
  rw [List.append_eq_nil] at hx
  exact h hx.2

theorem trimmedB_append (pre t : Str) (c : Char) (hh : pre.head? = some c)
    (hws : isWS c = false) (htr : trimmedB t = true) (hne : t ≠ []) :
    trimmedB (pre ++ t) = true := by
  obtain ⟨d, hd, hdws⟩ := trimmedB_getLast t htr hne
  cases pre with
  | nil => cases hh
  | cons c0 p2 =>
    injection hh with hh
    subst hh
    exact trimmedB_of_bounds _ c0 d rfl hws
      (by rw [List.getLast?_append_of_ne_nil _ hne, hd]) hdws

theorem endsWithChar_concat (l : Str) (a c : Char) :
    endsWithChar (l ++ [a]) c = decide (a = c) := by
  unfold endsWithChar
  rw [List.getLast?_concat]

theorem processLine_of_trimmed (st : PState) (p : Str) (h : trimmedB p = true) :
    processLine st p = processTrimmed st p := by
  unfold processLine
  rw [trim_of_trimmed p h]

theorem processLine_nil (st : PState) : processLine st [] = st := rfl

/-- A line that is no directive, has no chords, contains a colon, and is no
section header, is consumed as song-level metadata. -/
theorem processTrimmed_metaBranch (st : PState) (line : Str)
    (h0 : line ≠ [])
    (h1 : (startsWithChar line '{' && endsWithChar line '}') = false)
    (h2 : containsChords line = false)
    (h3 : (endsWithChar line ':' && sectionKeyword (toLowerStr line)) = false)
    (h4 : strContainsChar line ':' = true) :
    processTrimmed st line = { st with meta := parseHeaderMetadata line st.meta } := by
  unfold processTrimmed
  rw [if_neg h0, if_neg (by rw [h1]; simp)]
  by_cases he : endsWithChar line ':' = true
  · have hkw : sectionKeyword (toLowerStr line) = false := by
      rw [he] at h3
      simpa using h3
    rw [if_pos (by rw [he, h2]; rfl), if_neg (by simp [hkw])]
  · have he2 : endsWithChar line ':' = false := by
      simpa using he
    rw [if_neg (by rw [he2]; simp), if_pos (by rw [h4, h2, he2]; rfl)]

/-- A chord-free line ending in a colon whose text carries a section keyword
opens a new section. -/
theorem processTrimmed_headerBranch (st : PState) (line : Str)
    (h0 : line ≠ [])
    (h1 : (startsWithChar line '{' && endsWithChar line '}') = false)
    (h2 : containsChords line = false)
    (he : endsWithChar line ':' = true)
    (hkw : sectionKeyword (toLowerStr line) = true) :
    processTrimmed st line =
      { st with sections := pushCur st.cur st.sections,
                cur := some (createSection line) } := by
  unfold processTrimmed
  rw [if_neg h0, if_neg (by rw [h1]; simp), if_pos (by rw [he, h2]; rfl), if_pos hkw]

/-- A line that matches no earlier branch is appended to the open section as
a content line. -/
theorem processTrimmed_contentBranch (st : PState) (line : Str) (sec : SongSection)
    (hcur : st.cur = some sec)
    (h0 : line ≠ [])
    (h1 : (startsWithChar line '{' && endsWithChar line '}') = false)
    (h3 : (endsWithChar line ':' && !containsChords line) = false)
    (h4 : (strContainsChar line ':' && !containsChords line && !endsWithChar line ':') = false)
    (cl : ChordLyricLine) (hp : parseChordLyricLine line = some cl) :
    processTrimmed st line =
      { st with cur := some { sec with content := sec.content ++ [cl] } } := by
  unfold processTrimmed
  rw [if_neg h0, if_neg (by rw [h1]; simp), if_neg (by rw [h3]; simp),
    if_neg (by rw [h4]; simp), hcur]
  dsimp only
  rw [if_pos (by
    simp only [Bool.or_eq_true, decide_eq_true_eq]
    exact Or.inr (List.length_pos.mpr h0)), hp]

/-- A line that matches no branch while no section is open is dropped. -/
theorem processTrimmed_skipBranch (st : PState) (line : Str)
    (h1 : (startsWithChar line '{' && endsWithChar line '}') = false)
    (h3 : (endsWithChar line ':' && !containsChords line) = false)
    (h4 : (strContainsChar line ':' && !containsChords line && !endsWithChar line ':') = false)
    (hcur : st.cur = none) :
    processTrimmed st line = st := by
  unfold processTrimmed
  by_cases h0 : line = []
  · rw [if_pos h0]
  · rw [if_neg h0, if_neg (by rw [h1]; simp), if_neg (by rw [h3]; simp),
      if_neg (by rw [h4]; simp), hcur]

/-! ### The serializer's header lines under `parseHeaderMetadata` -/

theorem phm_title (t : Str) (m : ChordProMetadata) :
    parseHeaderMetadata (str "Title: " ++ t) m =
      { m with title := some (trim (' ' :: t)) } := rfl

theorem phm_artist (t : Str) (m : ChordProMetadata) :
    parseHeaderMetadata (str "Artist: " ++ t) m =
      { m with artist := some (trim (' ' :: t)) } := rfl

theorem phm_origkey (t : Str) (m : ChordProMetadata) :
    parseHeaderMetadata (str "Original Key: " ++ t) m =
      { m with originalKey := some (trim (' ' :: t)) } := rfl

theorem phm_keyB (k : Str) (m : ChordProMetadata) :
    parseHeaderMetadata (str "Key: [" ++ k ++ [']']) m =
      { m with key := some (stripKeyBrackets (trim (' ' :: '[' :: (k ++ [']'])))) } := rfl

theorem phm_capo (v : Str) (m : ChordProMetadata) :
    parseHeaderMetadata (str "Capo: " ++ v) m =
      { m with capo := some (parseIntJS (trim (' ' :: v))) } := rfl

theorem phm_tempo (v : Str) (m : ChordProMetadata) :
    parseHeaderMetadata (str "Tempo: " ++ v) m =
      { m with tempo := some (parseIntJS (trim (' ' :: v))) } := rfl

/-! ### The serializer's header lines in the parser loop -/

theorem processLine_title (st : PState) (t : Str)
    (h : metaFieldOK (str "Title: ") t = true) :
    processLine st (str "Title: " ++ t) =
      { st with meta := { st.meta with title := some t } } := by
  unfold metaFieldOK at h
  simp only [Bool.and_eq_true, decide_eq_true_eq, Bool.not_eq_true'] at h
  obtain ⟨⟨⟨⟨htr, hne⟩, hnl⟩, hnc⟩, hns⟩ := h
  rw [processLine_of_trimmed _ _ (trimmedB_append (str "Title: ") t 'T' rfl (by decide) htr hne)]
  rw [processTrimmed_metaBranch st (str "Title: " ++ t) (append_ne_nil_right _ _ hne) rfl hnc hns
    ((strContainsChar_iff _ ':').mpr (List.mem_append.mpr (Or.inl (by decide))))]
  rw [phm_title, trim_cons_ws ' ' t rfl, trim_of_trimmed t htr]

theorem processLine_artist (st : PState) (t : Str)
    (h : metaFieldOK (str "Artist: ") t = true) :
    processLine st (str "Artist: " ++ t) =
      { st with meta := { st.meta with artist := some t } } := by
  unfold metaFieldOK at h
  simp only [Bool.and_eq_true, decide_eq_true_eq, Bool.not_eq_true'] at h
  obtain ⟨⟨⟨⟨htr, hne⟩, hnl⟩, hnc⟩, hns⟩ := h
  rw [processLine_of_trimmed _ _ (trimmedB_append (str "Artist: ") t 'A' rfl (by decide) htr hne)]
  rw [processTrimmed_metaBranch st (str "Artist: " ++ t) (append_ne_nil_right _ _ hne) rfl hnc hns
    ((strContainsChar_iff _ ':').mpr (List.mem_append.mpr (Or.inl (by decide))))]
  rw [phm_artist, trim_cons_ws ' ' t rfl, trim_of_trimmed t htr]

theorem processLine_origkey (st : PState) (t : Str)
    (h : metaFieldOK (str "Original Key: ") t = true) :
    processLine st (str "Original Key: " ++ t) =
      { st with meta := { st.meta with originalKey := some t } } := by
  unfold metaFieldOK at h
  simp only [Bool.and_eq_true, decide_eq_true_eq, Bool.not_eq_true'] at h
  obtain ⟨⟨⟨⟨htr, hne⟩, hnl⟩, hnc⟩, hns⟩ := h
  rw [processLine_of_trimmed _ _ (trimmedB_append (str "Original Key: ") t 'O' rfl (by decide) htr hne)]
  rw [processTrimmed_metaBranch st (str "Original Key: " ++ t) (append_ne_nil_right _ _ hne) rfl hnc hns
    ((strContainsChar_iff _ ':').mpr (List.mem_append.mpr (Or.inl (by decide))))]
  rw [phm_origkey, trim_cons_ws ' ' t rfl, trim_of_trimmed t htr]

/-- The `Key: [k]` line never reaches an open section: with no current
section it can only change the `key` metadata field (or nothing at all,
when the bracketed key reads as a chord). -/
theorem processLine_keyLine (st : PState) (k : Str) (hcur : st.cur = none) :
    ∃ kv, processLine st (str "Key: [" ++ k ++ [']']) =
      { st with meta := { st.meta with key := kv } } := by
  have hlast : (str "Key: [" ++ k ++ [']']).getLast? = some ']' :=
    List.getLast?_concat _
  have htr : trimmedB (str "Key: [" ++ k ++ [']']) = true :=
    trimmedB_of_bounds _ 'K' ']' rfl (by decide) hlast (by decide)
  have hend : endsWithChar (str "Key: [" ++ k ++ [']']) ':' = false := by
    unfold endsWithChar
    rw [hlast]
    rfl
  rw [processLine_of_trimmed _ _ htr]
  by_cases hc : containsChords (str "Key: [" ++ k ++ [']']) = true
  · refine ⟨st.meta.key, ?_⟩
    rw [processTrimmed_skipBranch st (str "Key: [" ++ k ++ [']']) rfl (by rw [hend]; rfl)
      (by rw [hc, hend]; simp) hcur]
  · have hc2 : containsChords (str "Key: [" ++ k ++ [']']) = false := by
      simpa using hc
    refine ⟨some (stripKeyBrackets (trim (' ' :: '[' :: (k ++ [']'])))), ?_⟩
    rw [processTrimmed_metaBranch st (str "Key: [" ++ k ++ [']']) (append_ne_nil_right _ _ (by decide)) rfl hc2
      (by rw [hend]; rfl)
      ((strContainsChar_iff _ ':').mpr
        (List.mem_append.mpr (Or.inl (List.mem_append.mpr (Or.inl (by decide))))))]
    rw [phm_keyB]

theorem trimmedB_intToStr (n : Int) : trimmedB (intToStr n) = true := by
  obtain ⟨c, tl, hcons⟩ := List.exists_cons_of_ne_nil (intToStr_ne_nil n)
  obtain ⟨d, hd, hdig⟩ := intToStr_last_digit n
  have hcmem : c ∈ intToStr n := by
    rw [hcons]
    exact List.mem_cons_self c tl
  have hcws : isWS c = false := by
    rcases intToStr_chars n c hcmem with rfl | hdg
    · decide
    · exact (digit_char_facts c hdg).1
  exact trimmedB_of_bounds _ c d (by rw [hcons]; rfl) hcws hd
    ((digit_char_facts d hdig).1)

theorem intToStr_no_lbracket (pre : Str) (hpre : '[' ∉ pre) (n : Int) :
    '[' ∉ pre ++ intToStr n := by
  intro hx
  rcases List.mem_append.mp hx with hy | hy
  · exact hpre hy
  · rcases intToStr_chars n _ hy with h | h
    · exact absurd h (by decide)
    · exact absurd h (by decide)

theorem endsWithChar_num_colon (pre : Str) (n : Int) :
    endsWithChar (pre ++ intToStr n) ':' = false := by
  obtain ⟨d, hd, hdig⟩ := intToStr_last_digit n
  unfold endsWithChar
  rw [List.getLast?_append_of_ne_nil _ (intToStr_ne_nil n), hd]
  simp [(digit_char_facts d hdig).2.2.2.1]

theorem processLine_capo (st : PState) (n : Int) :
    processLine st (str "Capo: " ++ intToStr n) =
      { st with meta := { st.meta with capo := some (some n) } } := by
  have htr := trimmedB_intToStr n
  have hnc : containsChords (str "Capo: " ++ intToStr n) = false :=
    containsChords_false_of_no_lbracket _ (intToStr_no_lbracket _ (by decide) n)
  rw [processLine_of_trimmed _ _
    (trimmedB_append (str "Capo: ") _ 'C' rfl (by decide) htr (intToStr_ne_nil n))]
  rw [processTrimmed_metaBranch st (str "Capo: " ++ intToStr n) (append_ne_nil_right _ _ (intToStr_ne_nil n)) rfl hnc
    (by rw [endsWithChar_num_colon]; rfl)
    ((strContainsChar_iff _ ':').mpr (List.mem_append.mpr (Or.inl (by decide))))]
  rw [phm_capo, trim_cons_ws ' ' _ rfl, trim_of_trimmed _ htr, parseIntJS_intToStr]

theorem processLine_tempo (st : PState) (n : Int) :
    processLine st (str "Tempo: " ++ intToStr n) =
      { st with meta := { st.meta with tempo := some (some n) } } := by
  have htr := trimmedB_intToStr n
  have hnc : containsChords (str "Tempo: " ++ intToStr n) = false :=
    containsChords_false_of_no_lbracket _ (intToStr_no_lbracket _ (by decide) n)
  rw [processLine_of_trimmed _ _
    (trimmedB_append (str "Tempo: ") _ 'T' rfl (by decide) htr (intToStr_ne_nil n))]
  rw [processTrimmed_metaBranch st (str "Tempo: " ++ intToStr n) (append_ne_nil_right _ _ (intToStr_ne_nil n)) rfl hnc
    (by rw [endsWithChar_num_colon]; rfl)
    ((strContainsChar_iff _ ':').mpr (List.mem_append.mpr (Or.inl (by decide))))]
  rw [phm_tempo, trim_cons_ws ' ' _ rfl, trim_of_trimmed _ htr, parseIntJS_intToStr]

/-! ### Folding the parser loop over serialized sections -/

theorem processLine_content (st : PState) (sec : SongSection)
    (hcur : st.cur = some sec) (cl : ChordLyricLine) (h : lineWFb cl = true) :
    processLine st (serializeLine cl) =
      { st with cur := some { sec with content := sec.content ++ [cl] } } := by
  have hparse := parseCLL_serializeLine cl h
  unfold lineWFb at h
  rw [Bool.and_eq_true] at h
  obtain ⟨hnl, h⟩ := h
  by_cases hch : cl.chords = []
  · rw [if_pos hch] at h
    simp only [Bool.and_eq_true, Bool.not_eq_true', decide_eq_true_eq] at h
    obtain ⟨⟨⟨⟨htr, hne⟩, hcol⟩, hnc⟩, hdir⟩ := h
    have hser : serializeLine cl = cl.lyrics := by
      unfold serializeLine
      rw [if_pos hch]
    have hcolon : ':' ∉ cl.lyrics := not_mem_of_strContainsChar_false _ _ hcol
    rw [hser] at hparse ⊢
    rw [processLine_of_trimmed _ _ htr]
    exact processTrimmed_contentBranch st _ sec hcur hne (by rw [hdir])
      (by rw [endsWithChar_false_of_not_mem _ _ hcolon]; rfl)
      (by rw [hcol]; rfl) cl hparse
  · rw [if_neg hch] at h
    simp only [Bool.and_eq_true, Bool.not_eq_true', decide_eq_true_eq,
      List.all_eq_true] at h
    obtain ⟨⟨⟨⟨⟨hl1, hl2⟩, hall⟩, hsort⟩, htrm⟩, hdir⟩ := h
    have hcc : containsChords (serializeLine cl) = true := by
      obtain ⟨cp, rest, hcons⟩ := List.exists_cons_of_ne_nil hch
      have hcp1 := hall cp (by rw [hcons]; exact List.mem_cons_self cp rest)
      unfold chordOKb at hcp1
      simp only [Bool.and_eq_true, Bool.not_eq_true', decide_eq_true_eq] at hcp1
      unfold serializeLine
      rw [if_neg hch, sortCP_sorted_id _ hsort, hcons]
      exact containsChords_serialized cl.lyrics
        (not_mem_of_strContainsChar_false _ _ hl1) cp rest hcp1.1.1.1.1
        (not_mem_of_strContainsChar_false _ _ hcp1.1.1.2)
    have hne : serializeLine cl ≠ [] := by
      intro hx
      rw [hx] at hcc
      exact absurd hcc (by decide)
    rw [processLine_of_trimmed _ _ htrm]
    exact processTrimmed_contentBranch st _ sec hcur hne (by rw [hdir])
      (by rw [hcc]; simp) (by rw [hcc]; simp) cl hparse

theorem foldl_content (st : PState) (ty : SectionType) (name : Str) :
    ∀ (cls done : List ChordLyricLine), (∀ l ∈ cls, lineWFb l = true) →
    List.foldl processLine { st with cur := some ⟨ty, name, done⟩ }
        (cls.map serializeLine) =
      { st with cur := some ⟨ty, name, done ++ cls⟩ } := by
  intro cls
  induction cls with
  | nil =>
    intro done h
    simp
  | cons l rest ih =>
    intro done h
    rw [List.map_cons, List.foldl_cons,
      processLine_content { st with cur := some ⟨ty, name, done⟩ } ⟨ty, name, done⟩
        rfl l (h l (List.mem_cons_self l rest))]
    show List.foldl processLine { st with cur := some ⟨ty, name, done ++ [l]⟩ }
      (rest.map serializeLine) = _
    rw [ih (done ++ [l]) (fun q hq => h q (List.mem_cons_of_mem l hq))]
    simp

theorem foldl_section (st : PState) (sec : SongSection) (h : secWFb sec = true) :
    List.foldl processLine st (sectionPieces sec) =
      { st with sections := pushCur st.cur st.sections, cur := some sec } := by
  unfold secWFb at h
  simp only [Bool.and_eq_true, decide_eq_true_eq, Bool.not_eq_true',
    List.all_eq_true] at h
  obtain ⟨⟨⟨⟨⟨⟨htr, hne⟩, hnl⟩, hnc⟩, hkw⟩, hty⟩, hlines⟩ := h
  obtain ⟨c, t2, hct, hcws⟩ := trimmedB_head_ex sec.name htr hne
  unfold sectionPieces
  rw [if_neg hne, List.foldl_cons]
  have hhead : processLine st (sec.name ++ [':']) =
      { st with sections := pushCur st.cur st.sections,
                cur := some ⟨sec.type, sec.name, []⟩ } := by
    rw [processLine_of_trimmed _ _
      (trimmedB_append sec.name [':'] c (by rw [hct]; rfl) hcws (by decide) (by decide))]
    rw [processTrimmed_headerBranch st _ (append_ne_nil_right _ _ (by decide))
      (by rw [endsWithChar_concat]; simp) hnc (by rw [endsWithChar_concat]; rfl) hkw]
    unfold createSection
    rw [List.dropLast_concat, trim_of_trimmed _ htr, hty]
  rw [hhead, List.foldl_append]
  rw [foldl_content { st with sections := pushCur st.cur st.sections }
    sec.type sec.name sec.content [] hlines]
  show processLine ({ st with sections := pushCur st.cur st.sections, cur := some ⟨sec.type, sec.name, sec.content⟩ } : PState) [] = _
  rw [processLine_nil]

theorem foldl_sections (ss : List SongSection) (h : ∀ sec ∈ ss, secWFb sec = true) :
    ∀ st : PState,
      (List.foldl processLine st ((ss.map sectionPieces).flatten)).meta = st.meta ∧
      pushCur (List.foldl processLine st ((ss.map sectionPieces).flatten)).cur
          (List.foldl processLine st ((ss.map sectionPieces).flatten)).sections =
        pushCur st.cur st.sections ++ ss := by
  induction ss with
  | nil =>
    intro st
    exact ⟨rfl, by simp⟩
  | cons sec rest ih =>
    intro st
    have hflat : (((sec :: rest).map sectionPieces).flatten : List Str) =
        sectionPieces sec ++ (rest.map sectionPieces).flatten := by
      simp
    rw [hflat, List.foldl_append, foldl_section st sec (h sec (List.mem_cons_self sec rest))]
    obtain ⟨hm, hp⟩ := ih (fun q hq => h q (List.mem_cons_of_mem sec hq))
      { st with sections := pushCur st.cur st.sections, cur := some sec }
    refine ⟨by rw [hm], ?_⟩
    rw [hp]
    show pushCur (some sec) (pushCur st.cur st.sections) ++ rest = _
    unfold pushCur
    cases st.cur with
    | none => simp
    | some q => simp

/-! ### Serialized songs split back into their pieces -/

theorem metaFieldOK_noNL (pre t : Str) (h : metaFieldOK pre t = true) : '\n' ∉ t := by
  unfold metaFieldOK at h
  simp only [Bool.and_eq_true, decide_eq_true_eq, Bool.not_eq_true'] at h
  exact not_mem_of_strContainsChar_false _ _ h.1.1.2

theorem metaFieldOK_ne_nil (pre t : Str) (h : metaFieldOK pre t = true) : t ≠ [] := by
  unfold metaFieldOK at h
  simp only [Bool.and_eq_true, decide_eq_true_eq, Bool.not_eq_true'] at h
  exact h.1.1.1.2

theorem noNL_numLine (pre : Str) (hpre : '\n' ∉ pre) (n : Int) :
    '\n' ∉ pre ++ intToStr n := by
  intro hx
  rcases List.mem_append.mp hx with hy | hy
  · exact hpre hy
  · rcases intToStr_chars n _ hy with h | h
    · exact absurd h (by decide)
    · exact absurd h (by decide)

theorem noNL_sectionPieces (sec : SongSection) (h : secWFb sec = true) :
    ∀ p ∈ sectionPieces sec, '\n' ∉ p := by
  unfold secWFb at h
  simp only [Bool.and_eq_true, decide_eq_true_eq, Bool.not_eq_true',
    List.all_eq_true] at h
  obtain ⟨⟨⟨⟨⟨⟨htr, hne⟩, hnl⟩, hnc⟩, hkw⟩, hty⟩, hlines⟩ := h
  intro p hp
  unfold sectionPieces at hp
  rw [if_neg hne] at hp
  rcases List.mem_cons.mp hp with rfl | hp2
  · intro hx
    rcases List.mem_append.mp hx with hy | hy
    · exact not_mem_of_strContainsChar_false _ _ hnl hy
    · rw [List.mem_singleton] at hy
      exact absurd hy (by decide)
  · rcases List.mem_append.mp hp2 with hy | hy
    · obtain ⟨l, hl, rfl⟩ := List.mem_map.mp hy
      exact noNL_serializeLine l (hlines l hl)
    · rw [List.mem_singleton] at hy
      subst hy
      simp

theorem noNL_songPieces (s : Song) (h : songWF s = true) :
    ∀ p ∈ songPieces s, '\n' ∉ p := by
  unfold songWF at h
  simp only [Bool.and_eq_true, List.all_eq_true] at h
  obtain ⟨⟨⟨⟨hT, hA⟩, hK⟩, htm⟩, hsecs⟩ := h
  intro p hp
  unfold songPieces at hp
  simp only [List.mem_cons] at hp
  rcases hp with rfl | rfl | rfl | rfl | hp
  · intro hx
    rcases List.mem_append.mp hx with hy | hy
    · exact absurd hy (by decide)
    · exact metaFieldOK_noNL _ _ hT hy
  · intro hx
    rcases List.mem_append.mp hx with hy | hy
    · exact absurd hy (by decide)
    · exact metaFieldOK_noNL _ _ hA hy
  · intro hx
    rcases List.mem_append.mp hx with hy | hy
    · rcases List.mem_append.mp hy with hz | hz
      · exact absurd hz (by decide)
      · exact metaFieldOK_noNL _ _ hK hz
    · rw [List.mem_singleton] at hy
      exact absurd hy (by decide)
  · intro hx
    rcases List.mem_append.mp hx with hy | hy
    · exact absurd hy (by decide)
    · exact metaFieldOK_noNL _ _ hK hy
  · rcases List.mem_append.mp hp with hp12 | hp4
    · rcases List.mem_append.mp hp12 with hp1 | hp3
      · by_cases hc0 : s.capoPosition = 0
        · rw [if_pos hc0] at hp1
          cases hp1
        · rw [if_neg hc0] at hp1
          rw [List.mem_singleton] at hp1
          subst hp1
          exact noNL_numLine _ (by decide) _
      · cases htp : s.tempo with
        | none =>
          rw [htp] at hp3
          dsimp only at hp3
          cases hp3
        | some ot =>
          cases ot with
          | none =>
            rw [htp] at hp3
            dsimp only at hp3
            cases hp3
          | some n =>
            rw [htp] at hp3
            dsimp only at hp3
            by_cases hn0 : n = 0
            · rw [if_pos hn0] at hp3
              cases hp3
            · rw [if_neg hn0] at hp3
              rw [List.mem_singleton] at hp3
              subst hp3
              exact noNL_numLine _ (by decide) _
    · rcases List.mem_cons.mp hp4 with rfl | hp5
      · simp
      · rw [List.mem_flatten] at hp5
        obtain ⟨piece, hpc, hppc⟩ := hp5
        obtain ⟨sec, hsec, rfl⟩ := List.mem_map.mp hpc
        exact noNL_sectionPieces sec (hsecs sec hsec) p hppc

/-! ### Folding the parser loop over the serializer's header block -/

theorem orElseStr_some_ne (t d : Str) (h : t ≠ []) : orElseStr (some t) d = t := by
  show (if t = [] then d else t) = t
  rw [if_neg h]

theorem foldl_singleton (st : PState) (l : Str) :
    List.foldl processLine st [l] = processLine st l := rfl

/-- After the header block the parser state holds exactly the song's
metadata, with no section opened yet. -/
theorem foldl_header (s : Song)
    (hT : metaFieldOK (str "Title: ") s.title = true)
    (hA : metaFieldOK (str "Artist: ") s.artist = true)
    (hK : metaFieldOK (str "Original Key: ") s.originalKey = true)
    (htm : tempoOKb s.tempo = true) :
    ∃ st2 : PState,
      List.foldl processLine (⟨initMeta, [], none⟩ : PState) (songPieces s) =
        List.foldl processLine st2 ((s.sections.map sectionPieces).flatten) ∧
      st2.meta.title = some s.title ∧ st2.meta.artist = some s.artist ∧
      st2.meta.originalKey = some s.originalKey ∧
      st2.meta.capo = (if s.capoPosition = 0 then none else some (some s.capoPosition)) ∧
      st2.meta.tempo = s.tempo ∧ st2.cur = none ∧ st2.sections = [] := by
  unfold songPieces
  rw [List.foldl_cons, processLine_title _ _ hT, List.foldl_cons,
    processLine_artist _ _ hA, List.foldl_cons]
  obtain ⟨kv, hkey⟩ := processLine_keyLine
    (⟨⟨some s.title, some s.artist, none, none, none, none, none, none, none⟩, [], none⟩ : PState)
    s.originalKey rfl
  show ∃ st2 : PState,
    List.foldl processLine
      (processLine (⟨⟨some s.title, some s.artist, none, none, none, none, none, none, none⟩, [], none⟩ : PState)
        (str "Key: [" ++ s.originalKey ++ [']'])) _ = _ ∧ _
  rw [hkey, List.foldl_cons, processLine_origkey _ _ hK]
  show ∃ st2 : PState,
    List.foldl processLine
      (⟨⟨some s.title, some s.artist, kv, some s.originalKey, none, none, none, none, none⟩, [], none⟩ : PState) _ = _ ∧ _
  rw [List.foldl_append, List.foldl_append]
  by_cases hc0 : s.capoPosition = 0
  · rw [if_pos hc0, List.foldl_nil]
    cases htp : s.tempo with
    | none =>
      dsimp only
      rw [List.foldl_nil, List.foldl_cons, processLine_nil]
      refine ⟨_, rfl, rfl, rfl, rfl, by rw [if_pos hc0], rfl, rfl, rfl⟩
    | some ot =>
      cases ot with
      | none =>
        rw [htp] at htm
        exact absurd htm (by decide)
      | some n =>
        have hn0 : ¬ n = 0 := by
          rw [htp] at htm
          have hd : decide (n ≠ 0) = true := htm
          simpa using hd
        dsimp only
        rw [if_neg hn0, foldl_singleton, processLine_tempo, List.foldl_cons,
          processLine_nil]
        refine ⟨_, rfl, rfl, rfl, rfl, by rw [if_pos hc0], rfl, rfl, rfl⟩
  · rw [if_neg hc0, foldl_singleton, processLine_capo]
    cases htp : s.tempo with
    | none =>
      dsimp only
      rw [List.foldl_nil, List.foldl_cons, processLine_nil]
      refine ⟨_, rfl, rfl, rfl, rfl, by rw [if_neg hc0], rfl, rfl, rfl⟩
    | some ot =>
      cases ot with
      | none =>
        rw [htp] at htm
        exact absurd htm (by decide)
      | some n =>
        have hn0 : ¬ n = 0 := by
          rw [htp] at htm
          have hd : decide (n ≠ 0) = true := htm
          simpa using hd
        dsimp only
        rw [if_neg hn0, foldl_singleton, processLine_tempo, List.foldl_cons,
          processLine_nil]
        refine ⟨_, rfl, rfl, rfl, rfl, by rw [if_neg hc0], rfl, rfl, rfl⟩

/-- The amended round-trip: serializer-normal songs survive
`songToChordPro` followed by `parseChordPro` with all structured fields
equal. -/
theorem songWF_structEq (s : Song) (id2 : Str) (h : songWF s = true) :
    structEq (parseChordPro (songToChordPro s) id2) s := by
  have hWF := h
  unfold songWF at h
  simp only [Bool.and_eq_true, List.all_eq_true] at h
  obtain ⟨⟨⟨⟨hT, hA⟩, hK⟩, htm⟩, hsecs⟩ := h
  have hlines : splitLines (songToChordPro s) = songPieces s ++ [[]] := by
    unfold songToChordPro
    exact splitLines_pieces (songPieces s) (noNL_songPieces s hWF)
  obtain ⟨st2, hfold, ht1, ht2, ht3, ht4, ht5, ht6, ht7⟩ := foldl_header s hT hA hK htm
  have hPS : parseState (songToChordPro s) =
      List.foldl processLine st2 ((s.sections.map sectionPieces).flatten) := by
    unfold parseState
    rw [hlines, List.foldl_append, hfold, List.foldl_cons, List.foldl_nil,
      processLine_nil]
  obtain ⟨hmeta, hsections⟩ := foldl_sections s.sections hsecs st2
  rw [ht6, ht7] at hsections
  have hps0 : (pushCur (none : Option SongSection) [] : List SongSection) = [] := rfl
  rw [hps0, List.nil_append] at hsections
  unfold structEq parseChordPro
  dsimp only
  refine ⟨?_, ?_, ?_, ?_, ?_, ?_⟩
  · rw [hPS, hmeta, ht1]
    exact orElseStr_some_ne _ _ (metaFieldOK_ne_nil _ _ hT)
  · rw [hPS, hmeta, ht2]
    exact orElseStr_some_ne _ _ (metaFieldOK_ne_nil _ _ hA)
  · rw [hPS, hmeta, ht3]
    exact orElseStr_some_ne _ _ (metaFieldOK_ne_nil _ _ hK)
  · rw [hPS, hmeta, ht4]
    by_cases hc0 : s.capoPosition = 0
    · rw [if_pos hc0, hc0]
      rfl
    · rw [if_neg hc0]
      rfl
  · rw [hPS, hmeta, ht5]
  · rw [hPS]
    exact hsections

/-! ### Claim C1: amended round trip -/

/-- The concrete example text of the round-trip claim. -/
def exC1 : Str :=
  str "Title: X\nArtist: Y\nKey: G\n\nVerse 1:\nHello [G]world [C]today\n"

/-- Claim C1 (amended): serializing with `songToChordPro` and re-parsing
with `parseChordPro` preserves every structured field (title, artist,
originalKey, capoPosition, tempo, sections) for every Song in
serializer-normal form (`songWF`), which requires all of: title, artist and
originalKey trimmed, nonempty and newline-free, their emitted header lines
free of bracketed chord tokens and not reading as section headers; a tempo
that is absent or a nonzero number; section names trimmed, nonempty,
newline-free, chord-free with the trailing colon, carrying a section
keyword, with the section's kind equal to the kind inferred from the name;
every chord-free content line with trimmed, nonempty lyrics free of
newlines, colons and bracketed chord tokens and not shaped like a brace
directive; and every content line with chords having lyrics free of
newlines and of both bracket characters, chords nonempty, bracket-free,
newline-free, sorted by position and positioned within the lyrics, and a
serialized form that is trimmed and not shaped like a brace directive.
Not every Song `parseChordPro` produces is of this form (a parsed zero
tempo is dropped by the serializer), so the round trip is restricted to
`songWF`.  The concrete example parses to title "X", artist "Y", original
key "G", and one verse section named "Verse 1" holding lyrics
"Hello world today" with chords G at offset 6 and C at offset 12. -/
theorem parse_serialize_roundtrip (s : Song) (id2 : Str) (h : songWF s = true) :
    structEq (parseChordPro (songToChordPro s) id2) s ∧
    (parseChordPro exC1 (str "i")).title = str "X" ∧
    (parseChordPro exC1 (str "i")).artist = str "Y" ∧
    (parseChordPro exC1 (str "i")).originalKey = str "G" ∧
    (parseChordPro exC1 (str "i")).sections =
      [⟨SectionType.verse, str "Verse 1",
        [⟨str "Hello world today", [⟨str "G", 6⟩, ⟨str "C", 12⟩]⟩]⟩] :=
  ⟨songWF_structEq s id2 h, by decide, by decide, by decide, by decide⟩

set_option maxHeartbeats 1000000 in
/-- Witness: the example's parsed Song is in serializer-normal form, and the
round-trip theorem applied to it gives back all its structured fields. -/
theorem parse_serialize_roundtrip_witness :
    songWF (parseChordPro exC1 (str "i")) = true ∧
    structEq
      (parseChordPro (songToChordPro (parseChordPro exC1 (str "i"))) (str "i2"))
      (parseChordPro exC1 (str "i")) :=
  ⟨by decide,
    (parse_serialize_roundtrip (parseChordPro exC1 (str "i")) (str "i2") (by decide)).1⟩

/-! ### Claim C8: amended section-kind mapping -/

/-- Claim C8, amended: "Chorus:", "Bridge 2:", "Outro/Tag:" and "Verse 1:"
map to sections of kind chorus, bridge, outro and verse; in general every
trimmed chord-free heading ending in ':' that carries a section keyword but
whose name contains none of chorus/bridge/intro/outro/tag opens a section of
kind verse; but a heading ending in ':' with no section keyword opens no
section at all: the parser consumes it as song-level metadata, changing only
the metadata record and leaving both the emitted sections and the currently
open section untouched, so following content lines still join the open
section when there is one ("World" below) and are dropped when there is
none ("Hello [G]x" below). -/
theorem section_kind_mapping :
    ((parseChordPro
        (str "Chorus:\n[G]a\nBridge 2:\n[G]b\nOutro/Tag:\n[G]c\nVerse 1:\n[G]d\n")
        (str "i")).sections.map SongSection.type =
      [SectionType.chorus, SectionType.bridge, SectionType.outro, SectionType.verse]) ∧
    (∀ (st : PState) (line : Str),
      line ≠ [] →
      (startsWithChar line '{' && endsWithChar line '}') = false →
      containsChords line = false →
      endsWithChar line ':' = true →
      sectionKeyword (toLowerStr line) = true →
      strIncludes (toLowerStr (trim line.dropLast)) (str "chorus") = false →
      strIncludes (toLowerStr (trim line.dropLast)) (str "bridge") = false →
      strIncludes (toLowerStr (trim line.dropLast)) (str "intro") = false →
      strIncludes (toLowerStr (trim line.dropLast)) (str "outro") = false →
      strIncludes (toLowerStr (trim line.dropLast)) (str "tag") = false →
      processTrimmed st line =
        { st with sections := pushCur st.cur st.sections,
                  cur := some ⟨SectionType.verse, trim line.dropLast, []⟩ }) ∧
    (∀ (st : PState) (line : Str),
      line ≠ [] →
      (startsWithChar line '{' && endsWithChar line '}') = false →
      containsChords line = false →
      endsWithChar line ':' = true →
      sectionKeyword (toLowerStr line) = false →
      processTrimmed st line = { st with meta := parseHeaderMetadata line st.meta }) ∧
    ((parseChordPro (str "Verse 1:\nHello\nRandom:\nWorld\n") (str "i")).sections =
      [⟨SectionType.verse, str "Verse 1",
        [⟨str "Hello", []⟩, ⟨str "World", []⟩]⟩]) ∧
    ((parseChordPro (str "Random:\nHello [G]x\n") (str "i")).sections = []) := by
  refine ⟨by decide, ?_, ?_, by decide, by decide⟩
  · intro st line h0 h1 h2 he hkw hch hbr hin hou hta
    rw [processTrimmed_headerBranch st line h0 h1 h2 he hkw]
    unfold createSection sectionTypeOf
    rw [if_neg (by simp [hch]), if_neg (by simp [hbr]), if_neg (by simp [hin]),
      if_neg (by rw [hou, hta]; simp)]
  · intro st line h0 h1 h2 he hkw
    unfold processTrimmed
    rw [if_neg h0, if_neg (by rw [h1]; simp), if_pos (by rw [he, h2]; rfl),
      if_neg (by simp [hkw])]

/-- Witness for the general clauses: the keyword heading "Pre-Verse 2:"
(containing none of chorus/bridge/intro/outro/tag) opens a verse section,
and the keyword-less heading "Random:" is consumed as metadata even while a
section is open, leaving that section in place. -/
theorem section_kind_mapping_witness :
    (processTrimmed (⟨initMeta, [], none⟩ : PState) (str "Pre-Verse 2:") =
      { (⟨initMeta, [], none⟩ : PState) with
        sections := pushCur (⟨initMeta, [], none⟩ : PState).cur
          (⟨initMeta, [], none⟩ : PState).sections,
        cur := some ⟨SectionType.verse, trim ((str "Pre-Verse 2:").dropLast), []⟩ }) ∧
    (processTrimmed
        (⟨initMeta, [], some ⟨SectionType.verse, str "Verse 1", []⟩⟩ : PState)
        (str "Random:") =
      { (⟨initMeta, [], some ⟨SectionType.verse, str "Verse 1", []⟩⟩ : PState) with
        meta := parseHeaderMetadata (str "Random:")
          (⟨initMeta, [], some ⟨SectionType.verse, str "Verse 1", []⟩⟩ : PState).meta }) :=
  ⟨section_kind_mapping.2.1 (⟨initMeta, [], none⟩ : PState) (str "Pre-Verse 2:")
      (by decide) (by decide) (by decide) (by decide) (by decide) (by decide)
      (by decide) (by decide) (by decide) (by decide),
    section_kind_mapping.2.2.1
      (⟨initMeta, [], some ⟨SectionType.verse, str "Verse 1", []⟩⟩ : PState)
      (str "Random:") (by decide) (by decide) (by decide) (by decide) (by decide)⟩

end Gigpad
